import Mathlib

/-!
# bclib: transaction codec

A shallow embedding of `chains/btc/transaction.go`, `parser/file.go`,
`misc/tools.go` and `btc/net/network.go`.

* Bytes are natural numbers (below 256 in every well-formed source).
* Unsigned machine integers are natural numbers, reduced modulo `2 ^ w`
  wherever the Go code converts or stores them; signed ones are integers.
* A `File` is the content of the underlying `os.File` with its cursor.
  Buffers are allocated with `make`, hence zero-filled.  Where the length
  comes from the stream (`ReadBytes`, the witness stack), `make` panics
  (`makeslice: len out of range`) once the request exceeds `maxAlloc`, the
  limit of the Go runtime; requests within the limit are taken to be served
  (running out of memory below the limit is not modelled).
* Logging other than `log.Fatal` has no effect on the result and is left out.
* The goroutines of the peer supervisor are interleaved step by step, at two
  grains.  With `step`, each step (a call of `AddPeer`, a round of the loop
  of `Watch`, a round of a handler) is taken whole.  With `stepFine`, other
  steps may also run between the tests and the write of a call of `AddPeer`,
  as the code, which holds no lock, allows.  Time is not measured: a
  handler's timeout may fire at any step.
-/

namespace Bclib

/-- A byte, held as a natural number. -/
abbrev Byte := Nat

/-! ## encoding/binary -/

/-- The `k` low-order base-256 digits of `n`, least significant first
(`binary.LittleEndian.PutUint16/32/64` for `k = 2, 4, 8`). -/
def putLE : Nat → Nat → List Byte
  | 0, _ => []
  | k + 1, n => n % 256 :: putLE k (n / 256)

/-- The `k` low-order base-256 digits of `n`, most significant first
(`binary.BigEndian.PutUint16/32/64` for `k = 2, 4, 8`). -/
def putBE (k n : Nat) : List Byte := (putLE k n).reverse

/-- The number whose base-256 digits, least significant first, are `bs`
(`binary.LittleEndian.Uint16/32/64` on a buffer of 2, 4, 8 bytes). -/
def leUint : List Byte → Nat
  | [] => 0
  | b :: bs => b + 256 * leUint bs

/-- Conversion `int32(u)` of an unsigned 32-bit value. -/
def toInt32 (u : Nat) : Int :=
  if u % 2 ^ 32 < 2 ^ 31 then ((u % 2 ^ 32 : Nat) : Int) else ((u % 2 ^ 32 : Nat) : Int) - 2 ^ 32

/-- Conversion `int64(u)` of an unsigned 64-bit value. -/
def toInt64 (u : Nat) : Int :=
  if u % 2 ^ 64 < 2 ^ 63 then ((u % 2 ^ 64 : Nat) : Int) else ((u % 2 ^ 64 : Nat) : Int) - 2 ^ 64

/-- Conversion `uint32(v)` of a signed value. -/
def toUint32 (v : Int) : Nat := (v % 2 ^ 32).toNat

/-- Conversion `uint64(v)` of a signed value. -/
def toUint64 (v : Int) : Nat := (v % 2 ^ 64).toNat

/-! ## parser/file.go -/

/-- The largest request, in bytes, that `make` serves: `maxAlloc` of the Go
runtime, `1 << 48` on 64-bit Linux (`runtime/malloc.go`, Go 1.11 and
later).  Beyond it `make` panics with `makeslice: len out of range`. -/
def maxAlloc : Nat := 2 ^ 48

/-- The size in bytes of one `[]byte` slice header on a 64-bit platform
(pointer, length, capacity), the element size of a `[][]byte`. -/
def sliceHeaderSize : Nat := 24

/-- The `os.File` behind a `parser.File`: its content and the cursor. -/
structure File where
  data : List Byte
  pos : Nat
  deriving DecidableEq, Repr

namespace File

/-- The bytes from the cursor to the end of the file. -/
def rest (f : File) : List Byte := f.data.drop f.pos

/-- `f.file.Read(val)` on a buffer `val` of `n` zero bytes that `make` has
served: the buffer after the call (the bytes read, then the zeros `make` put
there) and the file with its cursor moved past the bytes read.  The count and
the error that `Read` returns are dropped by every caller.  Whether `make`
serves the buffer is the caller's matter: the fixed lengths 1, 2, 4, 8 are
always served, `ReadBytes` checks the length it is given. -/
def Read (f : File) (n : Nat) : List Byte × File :=
  let got := f.rest.take n
  (got ++ List.replicate (n - got.length) 0, { f with pos := f.pos + got.length })

/-- `f.Seek(offset, whence)`: the new cursor, or `none` when the resulting
position is negative or `whence` is not 0, 1 or 2. -/
def Seek (f : File) (offset : Int) (whence : Nat) : Option (Nat × File) :=
  let base : Option Int :=
    match whence with
    | 0 => some 0
    | 1 => some (f.pos : Int)
    | 2 => some (f.data.length : Int)
    | _ => none
  match base with
  | none => none
  | some b =>
    if b + offset < 0 then none
    else some ((b + offset).toNat, { f with pos := (b + offset).toNat })

/-- `Peek`: read `length` bytes without moving the cursor; `none` stands for
the `nil, err` result.  The length is the caller's (`parseTransaction` peeks
one byte), and the buffer is taken to be served. -/
def Peek (f : File) (length : Nat) : Option (List Byte) × File :=
  match f.Seek 0 1 with
  | none => (none, f)
  | some (pos, f1) =>
    let r := f1.Read length
    match r.2.Seek (pos : Int) 0 with
    | none => (none, r.2)
    | some (_, f3) => (some r.1, f3)

/-- `ReadByte`: the next byte. -/
def ReadByte (f : File) : Byte × File :=
  let r := f.Read 1
  (r.1.headD 0, r.2)

/-- `ReadBytes`: the next `length` bytes; `none` stands for the panic of
`make([]byte, length)` on a length beyond `maxAlloc`. -/
def ReadBytes (f : File) (length : Nat) : Option (List Byte × File) :=
  if length ≤ maxAlloc then some (f.Read length) else none

/-- `ReadUint16`: the next 2 bytes as a little-endian `uint16`. -/
def ReadUint16 (f : File) : Nat × File :=
  let r := f.Read 2
  (leUint r.1, r.2)

/-- `ReadInt32`: the next 4 bytes as a little-endian `int32`. -/
def ReadInt32 (f : File) : Int × File :=
  let r := f.Read 4
  (toInt32 (leUint r.1), r.2)

/-- `ReadUint32`: the next 4 bytes as a little-endian `uint32`. -/
def ReadUint32 (f : File) : Nat × File :=
  let r := f.Read 4
  (leUint r.1, r.2)

/-- `ReadUint64`: the next 8 bytes as a little-endian `uint64`. -/
def ReadUint64 (f : File) : Nat × File :=
  let r := f.Read 8
  (leUint r.1, r.2)

/-- `ReadVarint`: a first byte, then 8, 4, 2 or no further bytes. -/
def ReadVarint (f : File) : Nat × File :=
  let r := f.ReadByte
  if r.1 = 0xFF then r.2.ReadUint64
  else if r.1 = 0xFE then r.2.ReadUint32
  else if r.1 = 0xFD then r.2.ReadUint16
  else (r.1, r.2)

end File

/-- A file holding exactly the bytes `bs`, cursor at the start. -/
def fileOf (bs : List Byte) : File := { data := bs, pos := 0 }

/-! ## chains/btc/transaction.go -/

/-- The encoder `varint` of `transaction.go`. -/
def varint (n : Nat) : List Byte :=
  if n > 4294967295 then 0xFF :: putBE 8 n
  else if n > 65535 then 0xFE :: putBE 4 (n % 2 ^ 32)
  else if n > 255 then 0xFD :: putBE 2 (n % 2 ^ 16)
  else [n % 256]

/-- The CompactSize layout the specification (section 4.4) asks of the
varint encoder, written from its words. -/
def specVarint (n : Nat) : List Byte :=
  if n ≤ 0xFC then [n]
  else if n ≤ 0xFFFF then 0xFD :: putLE 2 n
  else if n ≤ 0xFFFFFFFF then 0xFE :: putLE 4 n
  else 0xFF :: putLE 8 n

/-- Modelled from the spec: the declaration of `models.TxInput` is not among
the sources; the fields are those of section 3 under the names and integer
widths the code uses (`Index` and `Sequence` are `uint32`). -/
structure TxInput where
  Hash : List Byte
  Index : Nat
  Script : List Byte
  Sequence : Nat
  ScriptWitness : List (List Byte)
  deriving DecidableEq, Repr

/-- Modelled from the spec: the declaration of `models.TxOutput` is not among
the sources; the fields are those of section 3 (`Index` is `uint32`, `Value`
is `int64`). -/
structure TxOutput where
  Index : Nat
  Value : Int
  Script : List Byte
  deriving DecidableEq, Repr

/-- Modelled from the spec: the declaration of `models.Transaction` is not
among the sources; the fields are those of section 3 and the counters the
code keeps (`NVersion` is `int32`; `NVin`, `NVout`, `Locktime` are `uint32`;
`Hash` is the txid, `none` while it is `nil`). -/
structure Transaction where
  Hash : Option (List Byte)
  NVersion : Int
  NVin : Nat
  Vin : List TxInput
  NVout : Nat
  Vout : List TxOutput
  Locktime : Nat
  deriving DecidableEq, Repr

/-- How a run of the parser ends: it returns, or `log.Fatal` ends the process
(the fatal call of `parseTransaction` logs the index and the hash it read),
or the Go runtime panics (an index out of range, or a `make` beyond
`maxAlloc`). -/
inductive Outcome (α : Type) where
  | ok : α → Outcome α
  | fatal : Nat → List Byte → Outcome α
  | panic : Outcome α
  deriving DecidableEq, Repr

/-- What `parseTransaction` returns: the transaction, the error value
(`none` for `nil`) and the reader as it is left. -/
structure Parsed where
  tx : Transaction
  err : Option String
  br : File
  deriving DecidableEq, Repr

/-- The buffer `emptyByte := make([]byte, 32)`. -/
def emptyByte : List Byte := List.replicate 32 0

/-- The loop over the inputs of `parseTransaction` with `n` rounds left:
each round reads one input and appends it to `vin`. -/
def parseInputs : Nat → File → List TxInput → Outcome (List TxInput × File)
  | 0, br, vin => .ok (vin, br)
  | n + 1, br, vin =>
    match br.ReadBytes 32 with
    | none => .panic
    | some h =>
      let i := h.2.ReadUint32
      if i.1 = 0xFFFFFFFF ∧ h.1 ≠ emptyByte then .fatal i.1 h.1
      else
        let l := i.2.ReadVarint
        match l.2.ReadBytes l.1 with
        | none => .panic
        | some s =>
          let q := s.2.ReadUint32
          parseInputs n q.2
            (vin ++ [{ Hash := h.1, Index := i.1, Script := s.1, Sequence := q.1,
                       ScriptWitness := [] }])

/-- The loop over the outputs of `parseTransaction`, at output number `i`
with `n` rounds left.  The call of `getAddress`, whose result is dropped, is
left out (the function is not among the sources). -/
def parseOutputs : Nat → Nat → File → List TxOutput → Outcome (List TxOutput × File)
  | 0, _, br, vout => .ok (vout, br)
  | n + 1, i, br, vout =>
    let v := br.ReadUint64
    let l := v.2.ReadVarint
    match l.2.ReadBytes l.1 with
    | none => .panic
    | some s =>
      parseOutputs n (i + 1) s.2 (vout ++ [{ Index := i, Value := toInt64 v.1, Script := s.1 }])

/-- The inner witness loop: `n` more items, each a varint length and that
many bytes, appended to `items`. -/
def parseWitnessItems : Nat → File → List (List Byte) → Outcome (List (List Byte) × File)
  | 0, br, items => .ok (items, br)
  | n + 1, br, items =>
    let l := br.ReadVarint
    match l.2.ReadBytes l.1 with
    | none => .panic
    | some s => parseWitnessItems n s.2 (items ++ [s.1])

/-- The outer witness loop at input number `i` with `n` rounds left: a varint
count, then `make([][]byte, witnessCount)`, which panics when the slice
headers exceed `maxAlloc`, then the items, stored in
`tx.Vin[i].ScriptWitness`. -/
def parseWitness : Nat → Nat → File → List TxInput → Outcome (List TxInput × File)
  | 0, _, br, vin => .ok (vin, br)
  | n + 1, i, br, vin =>
    let c := br.ReadVarint
    match vin[i]? with
    | none => .panic
    | some x =>
      if sliceHeaderSize * c.1 ≤ maxAlloc then
        match parseWitnessItems c.1 c.2 [] with
        | .fatal j h => .fatal j h
        | .panic => .panic
        | .ok w => parseWitness n (i + 1) w.2 (vin.set i { x with ScriptWitness := w.1 })
      else .panic

/-- The marker test of `parseTransaction`, given the peeked byte `p0`: the
flag `txFlag`, the input count `tx.NVin` and the reader after them. -/
def parseHeader (p0 : Byte) (br : File) : Nat × Nat × File :=
  if p0 = 0 then
    let m := br.ReadByte
    let fl := m.2.ReadByte
    if fl.1 ≠ 0 then
      let c := fl.2.ReadVarint
      (fl.1, c.1 % 2 ^ 32, c.2)
    else (fl.1, 0, fl.2)
  else
    let c := br.ReadVarint
    (0, c.1 % 2 ^ 32, c.2)

/-- The part of `parseTransaction` after the input loop: the output count,
the outputs, the witness stacks when bit 0 of the flag is set, the locktime,
and the return. -/
def parseTail (ver : Int) (txFlag nvin : Nat) (vin : List TxInput) (br : File) :
    Outcome Parsed :=
  let oc := br.ReadVarint
  let nvout := oc.1 % 2 ^ 32
  match parseOutputs nvout 0 oc.2 [] with
  | .fatal i h => .fatal i h
  | .panic => .panic
  | .ok outs =>
    let wit : Outcome (List TxInput × File) :=
      if txFlag % 2 = 1 then parseWitness nvin 0 outs.2 vin
      else .ok (vin, outs.2)
    match wit with
    | .fatal i h => .fatal i h
    | .panic => .panic
    | .ok (vin2, br2) =>
      let lt := br2.ReadUint32
      .ok { tx := { Hash := none, NVersion := ver, NVin := nvin, Vin := vin2,
                    NVout := nvout, Vout := outs.1, Locktime := lt.1 },
            err := none, br := lt.2 }

/-- The function `parseTransaction`. -/
def parseTransaction (br : File) : Outcome Parsed :=
  let ver := br.ReadInt32
  let p := ver.2.Peek 1
  match p.1 with
  | none => .panic
  | some pb =>
    match pb[0]? with
    | none => .panic
    | some p0 =>
      let hd := parseHeader p0 p.2
      match parseInputs hd.2.1 hd.2.2 [] with
      | .fatal i h => .fatal i h
      | .panic => .panic
      | .ok (vin, br1) => parseTail ver.1 hd.1 hd.2.1 vin br1

/-- The function `getInputBinary`. -/
def getInputBinary (x : TxInput) : List Byte :=
  x.Hash ++ putLE 4 x.Index ++ varint x.Script.length ++ x.Script ++ putLE 4 x.Sequence

/-- The function `getOutputBinary`. -/
def getOutputBinary (x : TxOutput) : List Byte :=
  putLE 8 (toUint64 x.Value) ++ varint x.Script.length ++ x.Script

/-- The byte string `bin` that `putTransactionHash` builds and hashes. -/
def hashPreimage (tx : Transaction) : List Byte :=
  putLE 4 (toUint32 tx.NVersion) ++ varint tx.Vin.length
    ++ (tx.Vin.map getInputBinary).flatten
    ++ varint tx.Vout.length ++ (tx.Vout.map getOutputBinary).flatten
    ++ putLE 4 tx.Locktime

/-- The function `putTransactionHash`; `sha` stands for `misc.DoubleSha256`,
which is not among the sources. -/
def putTransactionHash (sha : List Byte → List Byte) (tx : Transaction) : Transaction :=
  match tx.Hash with
  | some _ => tx
  | none => { tx with Hash := some (sha (hashPreimage tx)) }

/-! ## The encodings of the specification -/

/-- One input in the non-witness encoding of section 4.3, written from the
words of the specification. -/
def specInputBinary (x : TxInput) : List Byte :=
  x.Hash ++ putLE 4 x.Index ++ specVarint x.Script.length ++ x.Script ++ putLE 4 x.Sequence

/-- One output in the encoding of section 4.3, written from the words of the
specification. -/
def specOutputBinary (x : TxOutput) : List Byte :=
  putLE 8 (toUint64 x.Value) ++ specVarint x.Script.length ++ x.Script

/-- One witness item as section 4.2 (step 6) reads it: a CompactSize length,
then the bytes. -/
def specItemBinary (it : List Byte) : List Byte := specVarint it.length ++ it

/-- The witness stack of one input as section 4.2 (step 6) reads it: a
CompactSize item count, then the items. -/
def specWitnessBinary (x : TxInput) : List Byte :=
  specVarint x.ScriptWitness.length ++ (x.ScriptWitness.map specItemBinary).flatten

/-- The non-witness encoding of section 4.3 of the specification, written
from its words, with the CompactSize layout of section 4.4. -/
def specEncodeNonWitness (tx : Transaction) : List Byte :=
  putLE 4 (toUint32 tx.NVersion) ++ specVarint tx.Vin.length
    ++ (tx.Vin.map specInputBinary).flatten
    ++ specVarint tx.Vout.length ++ (tx.Vout.map specOutputBinary).flatten
    ++ putLE 4 tx.Locktime

/-- The extended (SegWit) form of section 4.2, written from the words of the
specification: version, marker `0x00`, flag, inputs, outputs, one witness
stack per input, locktime. -/
def specEncodeExtended (flag : Nat) (tx : Transaction) : List Byte :=
  putLE 4 (toUint32 tx.NVersion) ++ [0, flag] ++ specVarint tx.Vin.length
    ++ (tx.Vin.map specInputBinary).flatten
    ++ specVarint tx.Vout.length ++ (tx.Vout.map specOutputBinary).flatten
    ++ (tx.Vin.map specWitnessBinary).flatten
    ++ putLE 4 tx.Locktime

/-! ## Well-formed values -/

/-- The coinbase-shape invariant of section 3 for one input. -/
def TxInput.coinbaseShape (x : TxInput) : Prop :=
  x.Index = 0xFFFFFFFF → x.Hash = emptyByte

/-- A well-formed input: a 32-byte hash, fields within their integer widths,
a script that fits in one Go slice (`maxAlloc` bytes, hence a length below
`2 ^ 64`), and the coinbase shape. -/
def TxInput.valid (x : TxInput) : Prop :=
  x.Hash.length = 32 ∧ x.Index < 2 ^ 32 ∧ x.Script.length ≤ maxAlloc ∧ x.Sequence < 2 ^ 32 ∧
    x.coinbaseShape

/-- A witness stack that fits in Go slices: the item headers and each item
within `maxAlloc` bytes (hence a count and lengths below `2 ^ 64`). -/
def TxInput.validWitness (x : TxInput) : Prop :=
  sliceHeaderSize * x.ScriptWitness.length ≤ maxAlloc ∧
    ∀ it ∈ x.ScriptWitness, it.length ≤ maxAlloc

/-- A well-formed output: fields within their integer widths and a script
that fits in one Go slice. -/
def TxOutput.valid (x : TxOutput) : Prop :=
  -2 ^ 63 ≤ x.Value ∧ x.Value < 2 ^ 63 ∧ x.Script.length ≤ maxAlloc

/-- The outputs carry the indices `i`, `i + 1`, ... in order. -/
def indexedFrom : Nat → List TxOutput → Prop
  | _, [] => True
  | i, x :: xs => x.Index = i ∧ indexedFrom (i + 1) xs

/-- A well-formed transaction: every field within its integer width, inputs
and outputs well formed, each output carrying its position as index, and
counts that fit in 32 bits. -/
def Transaction.valid (tx : Transaction) : Prop :=
  -2 ^ 31 ≤ tx.NVersion ∧ tx.NVersion < 2 ^ 31 ∧ (∀ x ∈ tx.Vin, x.valid) ∧
    (∀ x ∈ tx.Vout, x.valid) ∧ indexedFrom 0 tx.Vout ∧ tx.Locktime < 2 ^ 32 ∧
    tx.Vin.length < 2 ^ 32 ∧ tx.Vout.length < 2 ^ 32

/-- An input with its witness stack emptied, as the input loop leaves it. -/
def TxInput.noWitness (x : TxInput) : TxInput := { x with ScriptWitness := [] }

/-- The reader `op`, started anywhere the bytes `a` come next, returns `v`
and stops right after `a`. -/
def Reads {α : Type} (op : File → α × File) (a : List Byte) (v : α) : Prop :=
  ∀ (f : File) (t : List Byte), f.rest = a ++ t → (op f).1 = v ∧ (op f).2.rest = t

/-- `g` holds what `f` holds from the cursor on, followed by zero bytes. -/
def ZeroExt (f g : File) : Prop := ∃ m, g.rest = f.rest ++ List.replicate m 0

/-- Two runs end the same way, with equal values and the second reader a zero
extension of the first. -/
def OutSim {α : Type} : Outcome (α × File) → Outcome (α × File) → Prop
  | .ok (v, f), .ok (w, g) => w = v ∧ ZeroExt f g
  | .fatal i h, .fatal j k => j = i ∧ k = h
  | .panic, .panic => True
  | _, _ => False

/-- Two runs of `parseTransaction` end the same way, with the same
transaction and error value, the second reader a zero extension of the
first. -/
def ParsedSim : Outcome Parsed → Outcome Parsed → Prop
  | .ok p, .ok q => q.tx = p.tx ∧ q.err = p.err ∧ ZeroExt p.br q.br
  | .fatal i h, .fatal j k => j = i ∧ k = h
  | .panic, .panic => True
  | _, _ => False

/-! ## Decision procedures and sample values -/

/-- The coinbase shape of an input can be computed. -/
instance (x : TxInput) : Decidable x.coinbaseShape := by
  unfold TxInput.coinbaseShape; infer_instance

/-- Well-formedness of an input can be computed. -/
instance (x : TxInput) : Decidable x.valid := by
  unfold TxInput.valid; infer_instance

/-- Well-formedness of a witness stack can be computed. -/
instance (x : TxInput) : Decidable x.validWitness := by
  unfold TxInput.validWitness; infer_instance

/-- Well-formedness of an output can be computed. -/
instance (x : TxOutput) : Decidable x.valid := by
  unfold TxOutput.valid; infer_instance

/-- Whether outputs carry consecutive indices can be computed. -/
instance decIndexedFrom : (i : Nat) → (l : List TxOutput) → Decidable (indexedFrom i l)
  | _, [] => isTrue trivial
  | i, x :: xs =>
    have := decIndexedFrom (i + 1) xs
    inferInstanceAs (Decidable (x.Index = i ∧ indexedFrom (i + 1) xs))

/-- Well-formedness of a transaction can be computed. -/
instance (tx : Transaction) : Decidable tx.valid := by
  unfold Transaction.valid; infer_instance

/-- A transaction without inputs or outputs, with locktime 5. -/
def emptyTx : Transaction :=
  { Hash := none, NVersion := 1, NVin := 0, Vin := [], NVout := 0, Vout := [], Locktime := 5 }

/-- A transaction with one input and one output, short scripts. -/
def smallTx : Transaction :=
  { Hash := none, NVersion := 1, NVin := 1,
    Vin := [{ Hash := List.replicate 32 7, Index := 2, Script := [5, 6], Sequence := 0xFFFFFFFF,
              ScriptWitness := [] }],
    NVout := 1, Vout := [{ Index := 0, Value := 10, Script := [3] }], Locktime := 4 }

/-- A transaction whose only input carries a script of 253 bytes. -/
def longScriptTx : Transaction :=
  { Hash := none, NVersion := 1, NVin := 1,
    Vin := [{ Hash := List.replicate 32 1, Index := 0, Script := List.replicate 253 0,
              Sequence := 0xFFFFFFFF, ScriptWitness := [] }],
    NVout := 0, Vout := [], Locktime := 0 }

/-- The transaction `smallTx` with a witness stack on its input. -/
def smallTxWitness : Transaction :=
  { smallTx with
    Vin := [{ Hash := List.replicate 32 7, Index := 2, Script := [5, 6],
              Sequence := 0xFFFFFFFF, ScriptWitness := [[7], [8, 9]] }] }

/-- A legacy stream whose only input has index `0xFFFFFFFF` and a hash of 32
bytes `9`, followed by nothing. -/
def badCoinbaseStream : List Byte :=
  [1, 0, 0, 0, 1] ++ List.replicate 32 9 ++ [0xFF, 0xFF, 0xFF, 0xFF]

/-- A transaction whose only input is a coinbase input with sequence 5. -/
def coinbaseTx : Transaction :=
  { Hash := none, NVersion := 1, NVin := 1,
    Vin := [{ Hash := emptyByte, Index := 0xFFFFFFFF, Script := [4, 1], Sequence := 5,
              ScriptWitness := [] }],
    NVout := 1, Vout := [{ Index := 0, Value := 50, Script := [3] }], Locktime := 0 }

/-- A legacy stream that stops inside the script of its only input: the
script length says 5, two bytes follow. -/
def truncatedStream : List Byte :=
  [1, 0, 0, 0, 1] ++ List.replicate 32 9 ++ [0, 0, 0, 0, 5, 7, 7]

/-- A legacy stream that ends after the script length of its only input, a
varint that says `2 ^ 64 - 1`. -/
def hugeScriptStream : List Byte :=
  [1, 0, 0, 0, 1] ++ List.replicate 32 9 ++ [0, 0, 0, 0] ++ List.replicate 9 0xFF

/-- An extended-form stream with a zero flag and one output, whose script
length is a varint that says `2 ^ 64 - 1`. -/
def zeroFlagHugeStream : List Byte :=
  [1, 0, 0, 0, 0, 0, 1] ++ List.replicate 8 0 ++ List.replicate 9 0xFF

/-- A legacy stream whose input count is `2 ^ 32`, written on nine bytes. -/
def hugeCountStream : List Byte :=
  [1, 0, 0, 0, 0xFF, 0, 0, 0, 0, 1, 0, 0, 0, 0, 7, 0, 0, 0]

/-- What `parseTransaction` returns on the encoding of `smallTx`. -/
def smallParsed : Parsed :=
  { tx := smallTx, err := none, br := { data := hashPreimage smallTx, pos := 63 } }

/-! ## misc/tools.go -/

/-- The swap loop of `ReverseHex` with `k` rounds left, the next one at index
`i = k - 1`; `none` stands for an index out of range. -/
def reverseLoop : Nat → List Byte → Option (List Byte)
  | 0, newb => some newb
  | k + 1, newb =>
    match newb[k]?, newb[newb.length - 1 - k]? with
    | some x, some y => reverseLoop k ((newb.set k y).set (newb.length - 1 - k) x)
    | _, _ => none

/-- The function `ReverseHex`: the slices `b` and `newb` when it returns
(`newb` is the result), or `none` on an index out of range.  The loop writes
to `newb` only. -/
def ReverseHex (b : List Byte) : Option (List Byte × List Byte) :=
  (reverseLoop (b.length / 2) b).map fun newb => (b, newb)

/-- The function `EcdsaToPkeyHash`; `sha256`, `ripemd160` and `doubleSha256`
stand for the hash functions, which are not among the sources.  The result is
`none` for `nil`; an empty input or a digest shorter than 4 bytes ends in a
panic. -/
def EcdsaToPkeyHash (sha256 ripemd160 doubleSha256 : List Byte → List Byte)
    (input : List Byte) : Outcome (Option (List Byte)) :=
  match input[0]? with
  | none => .panic
  | some b0 =>
    if b0 = 0x04 then
      let output := [0x00] ++ ripemd160 (sha256 input)
      let d := doubleSha256 output
      if d.length < 4 then .panic
      else .ok (some (output ++ d.take 4))
    else .ok none

/-! ## btc/net/network.go -/

/-- Modelled from the spec: the declaration of `Peer` is not among the
sources; of the fields of section 3 only the address is kept, the connection
and the queue having no part in the bookkeeping of the supervisor. -/
structure Peer where
  ip : String
  port : Nat
  deriving DecidableEq, Repr

/-- The keys of a Go map with string keys, held as a list of entries. -/
def mapKeys {β : Type} (m : List (String × β)) : List String := m.map Prod.fst

/-- The test `_, exists := m[k]`. -/
def hasKey {β : Type} (m : List (String × β)) (k : String) : Bool :=
  m.any fun e => e.1 == k

/-- The value `m[k]` of an entry that exists. -/
def mapLookup {β : Type} (m : List (String × β)) (k : String) : Option β :=
  (m.find? fun e => e.1 == k).map Prod.snd

/-- The statement `delete(m, k)`. -/
def mapDelete {β : Type} (m : List (String × β)) (k : String) : List (String × β) :=
  m.filter fun e => e.1 != k

/-- The statement `m[k] = v`: an entry under `k` is replaced. -/
def mapSet {β : Type} (m : List (String × β)) (k : String) (v : β) : List (String × β) :=
  mapDelete m k ++ [(k, v)]

/-- A goroutine `handle(p)` started by `Watch`, with the goroutine `action`
it started: `running` says whether `action` is still in its loop. -/
structure Handler where
  p : Peer
  running : Bool
  deriving DecidableEq, Repr

/-- Modelled from the spec: the declaration of `Network` is not among the
sources; the fields are those `New` sets (the callback `fn` and its argument
left out), together with the handler goroutines started so far. -/
structure Network where
  version : Nat
  services : Nat
  userAgent : String
  port : Nat
  peers : List (String × Peer)
  newAddr : List (String × Peer)
  banned : List (String × Bool)
  maxPeers : Nat
  handlers : List Handler
  deriving DecidableEq, Repr

/-- The errors `AddPeer` returns. -/
inductive AddPeerError where
  | dial
  | alreadyConnected
  | peerBanned
  deriving DecidableEq, Repr

namespace Network

/-- The method `New`, on a network without goroutines. -/
def New : Network :=
  { version := 70015, services := 0, userAgent := "/CW:01/", port := 8333,
    peers := [], newAddr := [], banned := [], maxPeers := 10, handlers := [] }

/-- The method `AddPeer`; `dialOk` says whether `openConnection` succeeds.
The result is the error (`none` for `nil`) and the network. -/
def AddPeer (n : Network) (p : Peer) (dialOk : Bool) : Option AddPeerError × Network :=
  if !dialOk then (some .dial, n)
  else if hasKey n.peers p.ip then (some .alreadyConnected, n)
  else if hasKey n.banned p.ip then (some .peerBanned, n)
  else (none, { n with newAddr := mapSet n.newAddr p.ip p })

/-- One round of the loop of `Watch`, for the entry `k, p` of `newAddr`;
`handshakeOk` says whether the handshake succeeds. -/
def watchBody (n : Network) (k : String) (p : Peer) (handshakeOk : Bool) : Network :=
  if n.peers.length < n.maxPeers then
    if handshakeOk then
      { n with newAddr := mapDelete n.newAddr k, peers := mapSet n.peers k p,
               handlers := n.handlers ++ [{ p := p, running := true }] }
    else n
  else n

/-- One pass of `Watch` over `newAddr`, the entries coming in the order
`order` (Go leaves the order of a map range open); nothing else runs in
between. -/
def watchTick (n : Network) (order : List (String × Peer)) (handshakeOk : String → Bool) :
    Network :=
  order.foldl (fun s e => s.watchBody e.1 e.2 (handshakeOk e.1)) n

/-- The calls of `AddPeer` that `action` makes for an `addr` message, each
with its own dial result; the errors are logged and dropped. -/
def addPeers (n : Network) (addrs : List (Peer × Bool)) : Network :=
  addrs.foldl (fun s a => (s.AddPeer a.1 a.2).2) n

/-- One round of the loop of `action` of handler `i` in which `waitMsg`
returns a message: the peers `addrs` of an `addr` message (none for any other
message) go through `AddPeer`, then the callback runs; when it fails the loop
ends, otherwise liveness is signalled. -/
def actionMessage (n : Network) (i : Nat) (addrs : List (Peer × Bool)) (callbackOk : Bool) :
    Network :=
  match n.handlers[i]? with
  | none => n
  | some h =>
    if h.running then
      let n1 := n.addPeers addrs
      if callbackOk then n1
      else { n1 with handlers := n1.handlers.set i { h with running := false } }
    else n

/-- One round of the loop of `action` of handler `i` in which `waitMsg`
fails: the loop ends. -/
def actionReadError (n : Network) (i : Nat) : Network :=
  match n.handlers[i]? with
  | none => n
  | some h =>
    if h.running then { n with handlers := n.handlers.set i { h with running := false } }
    else n

/-- The timeout branch of `handle` for handler `i`: the address is banned
and removed from `peers`; the `break` leaves the `select` only, so the handler
goes on. -/
def handleTimeout (n : Network) (i : Nat) : Network :=
  match n.handlers[i]? with
  | none => n
  | some h =>
    { n with banned := mapSet n.banned h.p.ip true, peers := mapDelete n.peers h.p.ip }

end Network

/-- The steps of the supervisor, each taken whole. -/
inductive Event where
  | addPeer (p : Peer) (dialOk : Bool)
  | watch (k : String) (handshakeOk : Bool)
  | message (i : Nat) (addrs : List (Peer × Bool)) (callbackOk : Bool)
  | readError (i : Nat)
  | timeout (i : Nat)
  deriving DecidableEq, Repr

/-- The network after one whole step. -/
def step (n : Network) : Event → Network
  | .addPeer p dialOk => (n.AddPeer p dialOk).2
  | .watch k handshakeOk =>
    match mapLookup n.newAddr k with
    | none => n
    | some p => n.watchBody k p handshakeOk
  | .message i addrs callbackOk => n.actionMessage i addrs callbackOk
  | .readError i => n.actionReadError i
  | .timeout i => n.handleTimeout i

/-- The network after the whole steps `evs`, started from `n`. -/
def runFrom (n : Network) (evs : List Event) : Network := evs.foldl step n

/-- What the supervisor keeps true: no address under two of the three maps,
every candidate filed under its own address, every handler's address active or
banned, and no more peers than `maxPeers`. -/
def Network.Inv (n : Network) : Prop :=
  (∀ k, k ∈ mapKeys n.peers → k ∉ mapKeys n.newAddr) ∧
  (∀ k, k ∈ mapKeys n.peers → k ∉ mapKeys n.banned) ∧
  (∀ k, k ∈ mapKeys n.newAddr → k ∉ mapKeys n.banned) ∧
  (∀ e ∈ n.newAddr, e.2.ip = e.1) ∧
  (∀ h ∈ n.handlers, h.p.ip ∈ mapKeys n.peers ∨ h.p.ip ∈ mapKeys n.banned) ∧
  n.peers.length ≤ n.maxPeers

/-- The method `New` with the cap set to `m`; `New` itself has `m = 10`. -/
def Network.start (m : Nat) : Network := { Network.New with maxPeers := m }

/-- Twenty peers with distinct addresses. -/
def seedPeers : List Peer :=
  ["10.0.0.1", "10.0.0.2", "10.0.0.3", "10.0.0.4", "10.0.0.5", "10.0.0.6", "10.0.0.7",
   "10.0.0.8", "10.0.0.9", "10.0.0.10", "10.0.0.11", "10.0.0.12", "10.0.0.13", "10.0.0.14",
   "10.0.0.15", "10.0.0.16", "10.0.0.17", "10.0.0.18", "10.0.0.19", "10.0.0.20"].map
    fun a => { ip := a, port := 8333 }

/-- The steps that put the twenty peers of `seedPeers` among the candidates. -/
def seedEvents : List Event := seedPeers.map fun p => Event.addPeer p true

/-- A peer is added and promoted, then the callback fails on its first
message. -/
def callbackErrorTrace : List Event :=
  [.addPeer { ip := "10.0.0.1", port := 8333 } true, .watch "10.0.0.1" true,
   .message 0 [] false]

/-- A peer is added and promoted, then its handler times out. -/
def timeoutTrace : List Event :=
  [.addPeer { ip := "10.0.0.1", port := 8333 } true, .watch "10.0.0.1" true, .timeout 0]

/-- The steps of `seedEvents`, then one round of the loop of `Watch` for each
of the twenty candidates, every handshake succeeding. -/
def seedWatchEvents : List Event :=
  seedEvents ++ seedPeers.map fun p => Event.watch p.ip true

/-! ### Calls of `AddPeer` that other steps cut in two -/

/-- The part of `AddPeer` up to its last test: the dial, the test of `peers`
and the test of `banned`.  The result is the error returned, `none` when the
call goes on to its write. -/
def Network.AddPeerChecks (n : Network) (p : Peer) (dialOk : Bool) : Option AddPeerError :=
  if !dialOk then some .dial
  else if hasKey n.peers p.ip then some .alreadyConnected
  else if hasKey n.banned p.ip then some .peerBanned
  else none

/-- The last statement of `AddPeer`, `n.newAddr[p.ip.String()] = p`. -/
def Network.AddPeerWrite (n : Network) (p : Peer) : Network :=
  { n with newAddr := mapSet n.newAddr p.ip p }

/-- The supervisor with calls of `AddPeer` under way: `pending` holds the
peers of the calls that have passed their tests and have not yet written to
`newAddr`. -/
structure Interleaved where
  net : Network
  pending : List Peer
  deriving DecidableEq, Repr

/-- The steps of the supervisor when a call of `AddPeer` need not be taken
whole: a whole step as before, the dial and the tests of a call of `AddPeer`,
or the write of the call number `j` among those under way. -/
inductive FineEvent where
  | whole (e : Event)
  | addPeerChecks (p : Peer) (dialOk : Bool)
  | addPeerWrite (j : Nat)
  deriving DecidableEq, Repr

/-- The supervisor after one such step.  A call whose tests fail returns its
error and is over; a call whose tests pass is under way until its write. -/
def stepFine (s : Interleaved) : FineEvent → Interleaved
  | .whole e => { s with net := step s.net e }
  | .addPeerChecks p dialOk =>
    match s.net.AddPeerChecks p dialOk with
    | some _ => s
    | none => { s with pending := s.pending ++ [p] }
  | .addPeerWrite j =>
    match s.pending[j]? with
    | none => s
    | some p => { net := s.net.AddPeerWrite p, pending := s.pending.eraseIdx j }

/-- The supervisor after the steps `evs`, started from `s`. -/
def runFine (s : Interleaved) (evs : List FineEvent) : Interleaved := evs.foldl stepFine s

/-- The supervisor right after `New` with the cap set to `m`, no call of
`AddPeer` under way. -/
def Interleaved.start (m : Nat) : Interleaved := { net := Network.start m, pending := [] }

/-- A second call of `AddPeer` for the candidate `10.0.0.1` passes its tests;
before it writes, `Watch` promotes the candidate and its handler times out,
which bans the address; then the call writes, and `Watch` promotes the
address again. -/
def raceTrace : List FineEvent :=
  [.whole (.addPeer { ip := "10.0.0.1", port := 8333 } true),
   .addPeerChecks { ip := "10.0.0.1", port := 8334 } true,
   .whole (.watch "10.0.0.1" true),
   .whole (.timeout 0),
   .addPeerWrite 0,
   .whole (.watch "10.0.0.1" true)]

/-! ## Reading what was written -/

theorem putLE_length (k n : Nat) : (putLE k n).length = k := by
  induction k generalizing n with
  | zero => rfl
  | succ k ih => simp [putLE, ih]

theorem leUint_putLE (k n : Nat) : leUint (putLE k n) = n % 256 ^ k := by
  induction k generalizing n with
  | zero => simp [putLE, leUint, Nat.mod_one]
  | succ k ih =>
    simp only [putLE, leUint, ih]
    rw [pow_succ, Nat.mul_comm (256 ^ k) 256, Nat.mod_mul]

theorem File.Read_fst (f : File) (n : Nat) :
    (f.Read n).1 = f.rest.take n ++ List.replicate (n - (f.rest.take n).length) 0 := rfl

theorem File.Read_data (f : File) (n : Nat) : (f.Read n).2.data = f.data := rfl

theorem File.Read_rest (f : File) (n : Nat) : (f.Read n).2.rest = f.rest.drop n := by
  simp only [File.Read, File.rest, List.length_take, List.length_drop, List.drop_drop]
  by_cases h : n ≤ f.data.length - f.pos
  · rw [Nat.min_eq_left h, Nat.add_comm]
  · have h1 : f.data.length - f.pos ≤ n := by omega
    rw [Nat.min_eq_right h1]
    rw [List.drop_eq_nil_of_le (by omega), List.drop_eq_nil_of_le (by omega)]

theorem File.Read_length (f : File) (n : Nat) : (f.Read n).1.length = n := by
  simp only [File.Read, List.length_append, List.length_replicate, List.length_take]
  omega

theorem File.Read_append (f : File) (a t : List Byte) (h : f.rest = a ++ t) :
    (f.Read a.length).1 = a ∧ (f.Read a.length).2.rest = t := by
  constructor
  · rw [File.Read_fst, h]; simp
  · rw [File.Read_rest, h]; simp

theorem File.Peek_eq (f : File) (n : Nat) : f.Peek n = (some (f.Read n).1, f) := by
  have h0 : ¬ ((f.pos : Int) < 0) := by omega
  simp [File.Peek, File.Seek, File.Read, h0]

theorem toInt32_toUint32 (v : Int) (h1 : -2 ^ 31 ≤ v) (h2 : v < 2 ^ 31) :
    toInt32 (toUint32 v) = v := by
  unfold toInt32 toUint32
  have e : ((v % 2 ^ 32).toNat % 2 ^ 32 : Nat) = (v % 2 ^ 32).toNat := by
    apply Nat.mod_eq_of_lt
    omega
  rw [e]
  split <;> omega

theorem toInt64_toUint64 (v : Int) (h1 : -2 ^ 63 ≤ v) (h2 : v < 2 ^ 63) :
    toInt64 (toUint64 v) = v := by
  unfold toInt64 toUint64
  have e : ((v % 2 ^ 64).toNat % 2 ^ 64 : Nat) = (v % 2 ^ 64).toNat := by
    apply Nat.mod_eq_of_lt
    omega
  rw [e]
  split <;> omega

theorem toUint32_lt (v : Int) : toUint32 v < 2 ^ 32 := by
  unfold toUint32; omega

theorem toUint64_lt (v : Int) : toUint64 v < 2 ^ 64 := by
  unfold toUint64; omega

theorem maxAlloc_lt : maxAlloc < 2 ^ 64 := by decide

theorem File.ReadBytes_some (f : File) (n : Nat) (h : n ≤ maxAlloc) :
    f.ReadBytes n = some (f.Read n) := if_pos h

theorem File.ReadBytes_none (f : File) (n : Nat) (h : ¬ n ≤ maxAlloc) :
    f.ReadBytes n = none := if_neg h

theorem File.ReadBytes_hash (f : File) : f.ReadBytes 32 = some (f.Read 32) :=
  File.ReadBytes_some f 32 (by decide)

theorem reads_ReadBytes (a : List Byte) (ha : a.length ≤ maxAlloc) (f : File) (t : List Byte)
    (h : f.rest = a ++ t) : ∃ f', f.ReadBytes a.length = some (a, f') ∧ f'.rest = t := by
  have hr := File.Read_append f a t h
  refine ⟨(f.Read a.length).2, ?_, hr.2⟩
  rw [File.ReadBytes_some f _ ha]
  exact congrArg some (Prod.ext hr.1 rfl)

theorem reads_ReadByte (b : Byte) : Reads File.ReadByte [b] b := by
  intro f t h
  have := File.Read_append f [b] t h
  simp only [List.length_singleton] at this
  simp [File.ReadByte, this.1, this.2]

theorem reads_leUint (k x : Nat) (hx : x < 256 ^ k) :
    Reads (fun f => (leUint (f.Read k).1, (f.Read k).2)) (putLE k x) x := by
  intro f t h
  have := File.Read_append f (putLE k x) t h
  rw [putLE_length] at this
  simp only [this.1, this.2, leUint_putLE, Nat.mod_eq_of_lt hx, and_self]

theorem reads_ReadUint16 (x : Nat) (hx : x < 2 ^ 16) : Reads File.ReadUint16 (putLE 2 x) x :=
  reads_leUint 2 x (by omega)

theorem reads_ReadUint32 (x : Nat) (hx : x < 2 ^ 32) : Reads File.ReadUint32 (putLE 4 x) x :=
  reads_leUint 4 x (by omega)

theorem reads_ReadUint64 (x : Nat) (hx : x < 2 ^ 64) : Reads File.ReadUint64 (putLE 8 x) x :=
  reads_leUint 8 x (by omega)

theorem reads_ReadInt32 (v : Int) (h1 : -2 ^ 31 ≤ v) (h2 : v < 2 ^ 31) :
    Reads File.ReadInt32 (putLE 4 (toUint32 v)) v := by
  intro f t h
  have := reads_ReadUint32 (toUint32 v) (toUint32_lt v) f t h
  simp only [File.ReadUint32] at this
  simp only [File.ReadInt32, this.1, this.2, toInt32_toUint32 v h1 h2, and_self]

theorem reads_ReadVarint (n : Nat) (hn : n < 2 ^ 64) : Reads File.ReadVarint (specVarint n) n := by
  intro f t h
  unfold specVarint at h
  unfold File.ReadVarint
  by_cases c1 : n ≤ 0xFC
  · rw [if_pos c1] at h
    have hb := reads_ReadByte n f t h
    simp only []
    rw [hb.1, if_neg (show ¬ n = 0xFF by omega), if_neg (show ¬ n = 0xFE by omega),
      if_neg (show ¬ n = 0xFD by omega)]
    exact ⟨rfl, hb.2⟩
  · rw [if_neg c1] at h
    by_cases c2 : n ≤ 0xFFFF
    · rw [if_pos c2] at h
      have hb := reads_ReadByte 0xFD f (putLE 2 n ++ t) (by simpa using h)
      have hv := reads_ReadUint16 n (by omega) _ t hb.2
      simp only []
      rw [hb.1, if_neg (by decide), if_neg (by decide), if_pos rfl]
      exact hv
    · rw [if_neg c2] at h
      by_cases c3 : n ≤ 0xFFFFFFFF
      · rw [if_pos c3] at h
        have hb := reads_ReadByte 0xFE f (putLE 4 n ++ t) (by simpa using h)
        have hv := reads_ReadUint32 n (by omega) _ t hb.2
        simp only []
        rw [hb.1, if_neg (by decide), if_pos rfl]
        exact hv
      · rw [if_neg c3] at h
        have hb := reads_ReadByte 0xFF f (putLE 8 n ++ t) (by simpa using h)
        have hv := reads_ReadUint64 n hn _ t hb.2
        simp only []
        rw [hb.1, if_pos rfl]
        exact hv

theorem parseInputs_spec (ins : List TxInput) :
    ∀ (acc : List TxInput) (f : File) (t : List Byte), (∀ x ∈ ins, x.valid) →
      f.rest = (ins.map specInputBinary).flatten ++ t →
      ∃ f', parseInputs ins.length f acc = .ok (acc ++ ins.map TxInput.noWitness, f') ∧
        f'.rest = t := by
  induction ins with
  | nil =>
    intro acc f t _ h
    exact ⟨f, by simp [parseInputs], by simpa using h⟩
  | cons x xs ih =>
    intro acc f t hv h
    obtain ⟨hlen, hidx, hscr, hseq, hcb⟩ := hv x (List.mem_cons_self _ _)
    simp only [List.map_cons, List.flatten_cons, specInputBinary, List.append_assoc] at h
    obtain ⟨f1, e1, r1⟩ := reads_ReadBytes x.Hash (by rw [hlen]; decide) f _ h
    rw [hlen] at e1
    have h2 := reads_ReadUint32 x.Index hidx _ _ r1
    have h3 := reads_ReadVarint x.Script.length (Nat.lt_of_le_of_lt hscr maxAlloc_lt) _ _ h2.2
    obtain ⟨f4, e4, r4⟩ := reads_ReadBytes x.Script hscr _ _ h3.2
    rw [← h3.1] at e4
    have h5 := reads_ReadUint32 x.Sequence hseq _ _ r4
    obtain ⟨f', hf, hr⟩ := ih (acc ++ [x.noWitness]) _ t
      (fun y hy => hv y (List.mem_cons_of_mem _ hy)) h5.2
    refine ⟨f', ?_, hr⟩
    rw [List.length_cons, parseInputs, e1]
    simp only []
    rw [h2.1, if_neg (by intro hc; exact hc.2 (hcb hc.1)), e4]
    simp only []
    rw [h5.1]
    have e : (⟨x.Hash, x.Index, x.Script, x.Sequence, []⟩ : TxInput) = x.noWitness := rfl
    rw [e]
    rw [hf]
    simp

theorem parseOutputs_spec (outs : List TxOutput) :
    ∀ (i : Nat) (acc : List TxOutput) (f : File) (t : List Byte), (∀ x ∈ outs, x.valid) →
      indexedFrom i outs → f.rest = (outs.map specOutputBinary).flatten ++ t →
      ∃ f', parseOutputs outs.length i f acc = .ok (acc ++ outs, f') ∧ f'.rest = t := by
  induction outs with
  | nil =>
    intro i acc f t _ _ h
    exact ⟨f, by simp [parseOutputs], by simpa using h⟩
  | cons x xs ih =>
    intro i acc f t hv hi h
    obtain ⟨hlo, hhi, hscr⟩ := hv x (List.mem_cons_self _ _)
    simp only [List.map_cons, List.flatten_cons, specOutputBinary, List.append_assoc] at h
    have h1 := reads_ReadUint64 (toUint64 x.Value) (toUint64_lt _) f _ h
    have h2 := reads_ReadVarint x.Script.length (Nat.lt_of_le_of_lt hscr maxAlloc_lt) _ _ h1.2
    obtain ⟨f3, e3, r3⟩ := reads_ReadBytes x.Script hscr _ _ h2.2
    rw [← h2.1] at e3
    obtain ⟨f', hf, hr⟩ := ih (i + 1) (acc ++ [x]) _ t
      (fun y hy => hv y (List.mem_cons_of_mem _ hy)) hi.2 r3
    refine ⟨f', ?_, hr⟩
    rw [List.length_cons, parseOutputs]
    rw [e3]
    simp only []
    rw [h1.1, toInt64_toUint64 _ hlo hhi]
    have e : (⟨i, x.Value, x.Script⟩ : TxOutput) = x := by
      cases x; simp only [TxOutput.mk.injEq, and_true, true_and]; exact hi.1.symm
    rw [e, hf]
    simp

theorem parseWitnessItems_spec (items : List (List Byte)) :
    ∀ (acc : List (List Byte)) (f : File) (t : List Byte),
      (∀ it ∈ items, it.length ≤ maxAlloc) →
      f.rest = (items.map specItemBinary).flatten ++ t →
      ∃ f', parseWitnessItems items.length f acc = .ok (acc ++ items, f') ∧ f'.rest = t := by
  induction items with
  | nil =>
    intro acc f t _ h
    exact ⟨f, by simp [parseWitnessItems], by simpa using h⟩
  | cons x xs ih =>
    intro acc f t hv h
    simp only [List.map_cons, List.flatten_cons, specItemBinary, List.append_assoc] at h
    have hx := hv x (List.mem_cons_self _ _)
    have h1 := reads_ReadVarint x.length (Nat.lt_of_le_of_lt hx maxAlloc_lt) f _ h
    obtain ⟨f2, e2, r2⟩ := reads_ReadBytes x hx _ _ h1.2
    rw [← h1.1] at e2
    obtain ⟨f', hf, hr⟩ := ih (acc ++ [x]) _ t (fun y hy => hv y (List.mem_cons_of_mem _ hy))
      (by simpa [specItemBinary] using r2)
    refine ⟨f', ?_, hr⟩
    rw [List.length_cons, parseWitnessItems]
    rw [e2]
    simp only []
    rw [hf]
    simp

theorem parseWitness_spec (xs : List TxInput) :
    ∀ (pre : List TxInput) (f : File) (t : List Byte), (∀ x ∈ xs, x.validWitness) →
      f.rest = (xs.map specWitnessBinary).flatten ++ t →
      ∃ f', parseWitness xs.length pre.length f (pre ++ xs.map TxInput.noWitness)
          = .ok (pre ++ xs, f') ∧ f'.rest = t := by
  induction xs with
  | nil =>
    intro pre f t _ h
    exact ⟨f, by simp [parseWitness], by simpa using h⟩
  | cons x xs ih =>
    intro pre f t hv h
    obtain ⟨hc, hit⟩ := hv x (List.mem_cons_self _ _)
    have hc64 : x.ScriptWitness.length < 2 ^ 64 := by
      unfold sliceHeaderSize maxAlloc at hc
      omega
    simp only [List.map_cons, List.flatten_cons, specWitnessBinary, List.append_assoc] at h
    have h1 := reads_ReadVarint x.ScriptWitness.length hc64 f _ h
    obtain ⟨f2, e2, r2⟩ := parseWitnessItems_spec x.ScriptWitness [] _ _ hit h1.2
    rw [← h1.1] at e2
    rw [← h1.1] at hc
    obtain ⟨f', hf, hr⟩ := ih (pre ++ [x]) _ t (fun y hy => hv y (List.mem_cons_of_mem _ hy))
      (by simpa [specWitnessBinary] using r2)
    refine ⟨f', ?_, hr⟩
    rw [List.length_cons, parseWitness]
    simp only [List.map_cons]
    rw [List.getElem?_append_right (Nat.le_refl _)]
    simp only [Nat.sub_self, List.getElem?_cons_zero]
    rw [if_pos hc, e2]
    simp only []
    have e : ({ x.noWitness with ScriptWitness := [] ++ x.ScriptWitness } : TxInput) = x := by
      cases x; rfl
    rw [e]
    have e2 : (pre ++ x.noWitness :: List.map TxInput.noWitness xs).set pre.length x
        = (pre ++ [x]) ++ List.map TxInput.noWitness xs := by
      rw [List.set_append_right _ _ (Nat.le_refl _)]
      simp
    rw [e2]
    simpa using hf

theorem specVarint_head (n : Nat) (h : 0 < n) : ∃ b bs, specVarint n = b :: bs ∧ b ≠ 0 := by
  unfold specVarint
  split
  · exact ⟨n, [], rfl, Nat.pos_iff_ne_zero.mp h⟩
  · split
    · exact ⟨_, _, rfl, by decide⟩
    · split
      · exact ⟨_, _, rfl, by decide⟩
      · exact ⟨_, _, rfl, by decide⟩

theorem File.Read_one (f : File) (b : Byte) (t : List Byte) (h : f.rest = b :: t) :
    (f.Read 1).1 = [b] := by
  rw [File.Read_fst, h]; simp

/-- On the non-witness encoding of a well-formed transaction with at least one
input, `parseTransaction` returns that transaction, witness stacks empty. -/
theorem parseTransaction_legacy (T : Transaction) (f : File) (t : List Byte)
    (hv : T.valid) (hne : T.Vin ≠ []) (h : f.rest = specEncodeNonWitness T ++ t) :
    ∃ fin, parseTransaction f = .ok
        { tx := { Hash := none, NVersion := T.NVersion, NVin := T.Vin.length,
                  Vin := T.Vin.map TxInput.noWitness, NVout := T.Vout.length, Vout := T.Vout,
                  Locktime := T.Locktime },
          err := none, br := fin } ∧ fin.rest = t := by
  obtain ⟨hv1, hv2, hin, hout, hidx, hlt, hnin, hnout⟩ := hv
  have hpos : 0 < T.Vin.length := List.length_pos.mpr hne
  obtain ⟨b, bs, hb, hb0⟩ := specVarint_head T.Vin.length hpos
  simp only [specEncodeNonWitness, List.append_assoc] at h
  have h1 := reads_ReadInt32 T.NVersion hv1 hv2 f _ h
  have hpk := File.Read_one f.ReadInt32.2 b _ (by rw [h1.2, hb]; rfl)
  have h2 := reads_ReadVarint T.Vin.length (by omega) _ _ h1.2
  obtain ⟨f1, hf1, hr1⟩ := parseInputs_spec T.Vin [] _ _ hin h2.2
  have h3 := reads_ReadVarint T.Vout.length (by omega) _ _ hr1
  obtain ⟨f4, hf4, hr4⟩ := parseOutputs_spec T.Vout 0 [] _ _ hout hidx h3.2
  have h5 := reads_ReadUint32 T.Locktime hlt _ _ hr4
  refine ⟨_, ?_, h5.2⟩
  unfold parseTransaction
  simp only [File.Peek_eq, hpk, List.getElem?_cons_zero, parseHeader, if_neg hb0]
  rw [h2.1, Nat.mod_eq_of_lt hnin, hf1]
  simp only [List.nil_append, parseTail]
  rw [h3.1, Nat.mod_eq_of_lt hnout, hf4, h1.1]
  simp [h5.1]

/-- On the extended encoding of a well-formed transaction, with bit 0 of the
flag set, `parseTransaction` returns that transaction with its witness
stacks. -/
theorem parseTransaction_extended (T : Transaction) (flag : Nat) (f : File) (t : List Byte)
    (hv : T.valid) (hw : ∀ x ∈ T.Vin, x.validWitness) (hflag : flag % 2 = 1)
    (h : f.rest = specEncodeExtended flag T ++ t) :
    ∃ fin, parseTransaction f = .ok
        { tx := { Hash := none, NVersion := T.NVersion, NVin := T.Vin.length,
                  Vin := T.Vin, NVout := T.Vout.length, Vout := T.Vout,
                  Locktime := T.Locktime },
          err := none, br := fin } ∧ fin.rest = t := by
  obtain ⟨hv1, hv2, hin, hout, hidx, hlt, hnin, hnout⟩ := hv
  have hf0 : flag ≠ 0 := by omega
  simp only [specEncodeExtended, List.append_assoc, List.cons_append, List.nil_append] at h
  have h1 := reads_ReadInt32 T.NVersion hv1 hv2 f _ h
  have hpk := File.Read_one f.ReadInt32.2 0 _ h1.2
  have hm := reads_ReadByte 0 f.ReadInt32.2 _ h1.2
  have hfl := reads_ReadByte flag _ _ hm.2
  have h2 := reads_ReadVarint T.Vin.length (by omega) _ _ hfl.2
  obtain ⟨f1, hf1, hr1⟩ := parseInputs_spec T.Vin [] _ _ hin h2.2
  have h3 := reads_ReadVarint T.Vout.length (by omega) _ _ hr1
  obtain ⟨f4, hf4, hr4⟩ := parseOutputs_spec T.Vout 0 [] _ _ hout hidx h3.2
  obtain ⟨f2, hf2, hr2⟩ := parseWitness_spec T.Vin [] _ _ hw hr4
  have h5 := reads_ReadUint32 T.Locktime hlt _ _ hr2
  refine ⟨_, ?_, h5.2⟩
  unfold parseTransaction
  simp only [File.Peek_eq, hpk, List.getElem?_cons_zero, parseHeader, if_pos]
  rw [hfl.1]
  simp only [ne_eq, hf0, not_false_eq_true, if_true]
  rw [h2.1, Nat.mod_eq_of_lt hnin, hf1]
  simp only [List.nil_append, parseTail]
  rw [h3.1, Nat.mod_eq_of_lt hnout, hf4, h1.1]
  simp only [List.nil_append, if_pos hflag]
  simp only [List.length_nil, List.nil_append] at hf2
  rw [hf2]
  simp [h5.1]

/-! ## A source that ends early reads as zeros -/

theorem ZeroExt.refl (f : File) : ZeroExt f f := ⟨0, by simp⟩

theorem ZeroExt.of_rest_eq {f g : File} (h : g.rest = f.rest) : ZeroExt f g := ⟨0, by simp [h]⟩

theorem Read_sim {f g : File} (h : ZeroExt f g) (n : Nat) :
    (g.Read n).1 = (f.Read n).1 ∧ ZeroExt (f.Read n).2 (g.Read n).2 := by
  obtain ⟨m, hm⟩ := h
  constructor
  · rw [File.Read_fst, File.Read_fst, hm, List.take_append_eq_append_take, List.take_replicate,
      List.append_assoc, List.append_replicate_replicate]
    congr 2
    simp only [List.length_append, List.length_take, List.length_replicate]
    omega
  · refine ⟨m - (n - f.rest.length), ?_⟩
    rw [File.Read_rest, File.Read_rest, hm, List.drop_append_eq_append_drop, List.drop_replicate]

theorem ReadByte_sim {f g : File} (h : ZeroExt f g) :
    g.ReadByte.1 = f.ReadByte.1 ∧ ZeroExt f.ReadByte.2 g.ReadByte.2 := by
  have := Read_sim h 1
  simp only [File.ReadByte, this.1]
  exact ⟨trivial, this.2⟩

theorem OutSim.cases {α : Type} {a b : Outcome (α × File)} (h : OutSim a b) :
    (∃ v f g, a = .ok (v, f) ∧ b = .ok (v, g) ∧ ZeroExt f g) ∨
      (∃ i k, a = .fatal i k ∧ b = .fatal i k) ∨ (a = .panic ∧ b = .panic) := by
  cases a with
  | ok x =>
    cases b with
    | ok y =>
      obtain ⟨v, f⟩ := x
      obtain ⟨w, g⟩ := y
      obtain ⟨hv, hz⟩ := h
      exact Or.inl ⟨v, f, g, rfl, by rw [hv], hz⟩
    | fatal _ _ => exact h.elim
    | panic => exact h.elim
  | fatal i k =>
    cases b with
    | ok y => exact h.elim
    | fatal j l =>
      obtain ⟨h1, h2⟩ := h
      exact Or.inr (Or.inl ⟨i, k, rfl, by rw [h1, h2]⟩)
    | panic => exact h.elim
  | panic =>
    cases b with
    | ok y => exact h.elim
    | fatal _ _ => exact h.elim
    | panic => exact Or.inr (Or.inr ⟨rfl, rfl⟩)

theorem ReadBytes_sim {f g : File} (h : ZeroExt f g) (n : Nat) :
    (f.ReadBytes n = none ∧ g.ReadBytes n = none) ∨
      ∃ a b, f.ReadBytes n = some a ∧ g.ReadBytes n = some b ∧ b.1 = a.1 ∧ ZeroExt a.2 b.2 := by
  by_cases hn : n ≤ maxAlloc
  · exact Or.inr ⟨_, _, File.ReadBytes_some f n hn, File.ReadBytes_some g n hn, Read_sim h n⟩
  · exact Or.inl ⟨File.ReadBytes_none f n hn, File.ReadBytes_none g n hn⟩

theorem ReadUint16_sim {f g : File} (h : ZeroExt f g) :
    g.ReadUint16.1 = f.ReadUint16.1 ∧ ZeroExt f.ReadUint16.2 g.ReadUint16.2 := by
  have := Read_sim h 2
  simp only [File.ReadUint16, this.1]
  exact ⟨trivial, this.2⟩

theorem ReadUint32_sim {f g : File} (h : ZeroExt f g) :
    g.ReadUint32.1 = f.ReadUint32.1 ∧ ZeroExt f.ReadUint32.2 g.ReadUint32.2 := by
  have := Read_sim h 4
  simp only [File.ReadUint32, this.1]
  exact ⟨trivial, this.2⟩

theorem ReadInt32_sim {f g : File} (h : ZeroExt f g) :
    g.ReadInt32.1 = f.ReadInt32.1 ∧ ZeroExt f.ReadInt32.2 g.ReadInt32.2 := by
  have := Read_sim h 4
  simp only [File.ReadInt32, this.1]
  exact ⟨trivial, this.2⟩

theorem ReadUint64_sim {f g : File} (h : ZeroExt f g) :
    g.ReadUint64.1 = f.ReadUint64.1 ∧ ZeroExt f.ReadUint64.2 g.ReadUint64.2 := by
  have := Read_sim h 8
  simp only [File.ReadUint64, this.1]
  exact ⟨trivial, this.2⟩

theorem ReadVarint_sim {f g : File} (h : ZeroExt f g) :
    g.ReadVarint.1 = f.ReadVarint.1 ∧ ZeroExt f.ReadVarint.2 g.ReadVarint.2 := by
  have hb := ReadByte_sim h
  unfold File.ReadVarint
  simp only []
  rw [hb.1]
  by_cases c1 : f.ReadByte.1 = 0xFF
  · rw [if_pos c1, if_pos c1]; exact ReadUint64_sim hb.2
  · rw [if_neg c1, if_neg c1]
    by_cases c2 : f.ReadByte.1 = 0xFE
    · rw [if_pos c2, if_pos c2]; exact ReadUint32_sim hb.2
    · rw [if_neg c2, if_neg c2]
      by_cases c3 : f.ReadByte.1 = 0xFD
      · rw [if_pos c3, if_pos c3]; exact ReadUint16_sim hb.2
      · rw [if_neg c3, if_neg c3]; exact ⟨rfl, hb.2⟩

theorem parseInputs_sim (n : Nat) : ∀ {f g : File} (acc : List TxInput), ZeroExt f g →
    OutSim (parseInputs n f acc) (parseInputs n g acc) := by
  induction n with
  | zero =>
    intro f g acc h
    simp only [parseInputs, OutSim]
    exact ⟨trivial, h⟩
  | succ n ih =>
    intro f g acc h
    rw [parseInputs, parseInputs]
    rcases ReadBytes_sim h 32 with ⟨e1, e2⟩ | ⟨a, b, e1, e2, hv, hz⟩
    · rw [e1, e2]; exact trivial
    · rw [e1, e2]
      simp only []
      have h2 := ReadUint32_sim hz
      have h3 := ReadVarint_sim h2.2
      rw [hv, h2.1, h3.1]
      split
      · exact ⟨rfl, rfl⟩
      · rcases ReadBytes_sim h3.2 a.2.ReadUint32.2.ReadVarint.1 with
          ⟨e3, e4⟩ | ⟨c, d, e3, e4, hv2, hz2⟩
        · rw [e3, e4]; exact trivial
        · rw [e3, e4]
          simp only []
          have h5 := ReadUint32_sim hz2
          rw [hv2, h5.1]
          exact ih _ h5.2

theorem parseOutputs_sim (n : Nat) : ∀ {f g : File} (i : Nat) (acc : List TxOutput),
    ZeroExt f g → OutSim (parseOutputs n i f acc) (parseOutputs n i g acc) := by
  induction n with
  | zero =>
    intro f g i acc h
    simp only [parseOutputs, OutSim]
    exact ⟨trivial, h⟩
  | succ n ih =>
    intro f g i acc h
    have h1 := ReadUint64_sim h
    have h2 := ReadVarint_sim h1.2
    rw [parseOutputs, parseOutputs]
    rw [h1.1, h2.1]
    rcases ReadBytes_sim h2.2 f.ReadUint64.2.ReadVarint.1 with
      ⟨e3, e4⟩ | ⟨c, d, e3, e4, hv2, hz2⟩
    · rw [e3, e4]; exact trivial
    · rw [e3, e4]
      simp only []
      rw [hv2]
      exact ih _ _ hz2

theorem parseWitnessItems_sim (n : Nat) : ∀ {f g : File} (acc : List (List Byte)),
    ZeroExt f g → OutSim (parseWitnessItems n f acc) (parseWitnessItems n g acc) := by
  induction n with
  | zero =>
    intro f g acc h
    simp only [parseWitnessItems, OutSim]
    exact ⟨trivial, h⟩
  | succ n ih =>
    intro f g acc h
    have h1 := ReadVarint_sim h
    rw [parseWitnessItems, parseWitnessItems]
    rw [h1.1]
    rcases ReadBytes_sim h1.2 f.ReadVarint.1 with ⟨e3, e4⟩ | ⟨c, d, e3, e4, hv2, hz2⟩
    · rw [e3, e4]; exact trivial
    · rw [e3, e4]
      simp only []
      rw [hv2]
      exact ih _ hz2

theorem parseWitness_sim (n : Nat) : ∀ {f g : File} (i : Nat) (vin : List TxInput),
    ZeroExt f g → OutSim (parseWitness n i f vin) (parseWitness n i g vin) := by
  induction n with
  | zero =>
    intro f g i vin h
    simp only [parseWitness, OutSim]
    exact ⟨trivial, h⟩
  | succ n ih =>
    intro f g i vin h
    have h1 := ReadVarint_sim h
    have h2 := parseWitnessItems_sim f.ReadVarint.1 [] h1.2
    rw [parseWitness, parseWitness]
    rw [h1.1]
    cases hx : vin[i]? with
    | none => simp only [OutSim]
    | some x =>
      simp only []
      by_cases hc : sliceHeaderSize * f.ReadVarint.1 ≤ maxAlloc
      · rw [if_pos hc, if_pos hc]
        rcases OutSim.cases h2 with ⟨v, a, b, ea, eb, hz⟩ | ⟨j, k, ea, eb⟩ | ⟨ea, eb⟩
        · rw [ea, eb]
          exact ih _ _ hz
        · rw [ea, eb]; exact ⟨rfl, rfl⟩
        · rw [ea, eb]; exact trivial
      · rw [if_neg hc, if_neg hc]; exact trivial

theorem parseHeader_sim {f g : File} (p0 : Byte) (h : ZeroExt f g) :
    (parseHeader p0 g).1 = (parseHeader p0 f).1 ∧
      (parseHeader p0 g).2.1 = (parseHeader p0 f).2.1 ∧
      ZeroExt (parseHeader p0 f).2.2 (parseHeader p0 g).2.2 := by
  unfold parseHeader
  by_cases c : p0 = 0
  · rw [if_pos c, if_pos c]
    have h1 := ReadByte_sim h
    have h2 := ReadByte_sim h1.2
    have h3 := ReadVarint_sim h2.2
    simp only []
    rw [h2.1]
    by_cases c2 : f.ReadByte.2.ReadByte.1 ≠ 0
    · rw [if_pos c2, if_pos c2, h3.1]
      exact ⟨by trivial, by trivial, h3.2⟩
    · rw [if_neg c2, if_neg c2]
      exact ⟨by trivial, by trivial, h2.2⟩
  · rw [if_neg c, if_neg c]
    have h3 := ReadVarint_sim h
    simp only []
    rw [h3.1]
    exact ⟨by trivial, by trivial, h3.2⟩

theorem parseTail_sim {f g : File} (ver : Int) (fl nvin : Nat) (vin : List TxInput)
    (h : ZeroExt f g) :
    ParsedSim (parseTail ver fl nvin vin f) (parseTail ver fl nvin vin g) := by
  have h1 := ReadVarint_sim h
  have h2 := parseOutputs_sim (f.ReadVarint.1 % 2 ^ 32) 0 [] h1.2
  unfold parseTail
  simp only []
  rw [h1.1]
  rcases OutSim.cases h2 with ⟨v, a, b, ea, eb, hz⟩ | ⟨j, k, ea, eb⟩ | ⟨ea, eb⟩
  · rw [ea, eb]
    simp only []
    by_cases c : fl % 2 = 1
    · rw [if_pos c, if_pos c]
      rcases OutSim.cases (parseWitness_sim nvin 0 vin hz) with
        ⟨w, a2, b2, ea2, eb2, hz2⟩ | ⟨j, k, ea2, eb2⟩ | ⟨ea2, eb2⟩
      · rw [ea2, eb2]
        have h4 := ReadUint32_sim hz2
        simp only [ParsedSim]
        rw [h4.1]
        exact ⟨by trivial, by trivial, h4.2⟩
      · rw [ea2, eb2]; exact ⟨rfl, rfl⟩
      · rw [ea2, eb2]; exact trivial
    · rw [if_neg c, if_neg c]
      have h4 := ReadUint32_sim hz
      simp only [ParsedSim]
      rw [h4.1]
      exact ⟨by trivial, by trivial, h4.2⟩
  · rw [ea, eb]; exact ⟨rfl, rfl⟩
  · rw [ea, eb]; exact trivial

/-- Continuing a source with zero bytes does not change how `parseTransaction`
ends. -/
theorem parseTransaction_sim {f g : File} (h : ZeroExt f g) :
    ParsedSim (parseTransaction f) (parseTransaction g) := by
  have h1 := ReadInt32_sim h
  have h2 := Read_sim h1.2 1
  unfold parseTransaction
  simp only [File.Peek_eq]
  rw [h1.1, h2.1]
  cases (f.ReadInt32.2.Read 1).1[0]? with
  | none => exact trivial
  | some p0 =>
    simp only []
    have h3 := parseHeader_sim p0 h1.2
    rw [h3.1, h3.2.1]
    rcases OutSim.cases (parseInputs_sim (parseHeader p0 f.ReadInt32.2).2.1 [] h3.2.2) with
      ⟨v, a, b, ea, eb, hz⟩ | ⟨j, k, ea, eb⟩ | ⟨ea, eb⟩
    · rw [ea, eb]
      exact parseTail_sim _ _ _ _ hz
    · rw [ea, eb]; exact ⟨rfl, rfl⟩
    · rw [ea, eb]; exact trivial

/-! ## The shape of what the parser returns -/

theorem parseInputs_ok (n : Nat) : ∀ (f : File) (acc v : List TxInput) (f' : File),
    parseInputs n f acc = .ok (v, f') →
      ∃ l, v = acc ++ l ∧ l.length = n ∧
        ∀ x ∈ l, x.coinbaseShape ∧ x.Hash.length = 32 ∧ x.ScriptWitness = [] := by
  induction n with
  | zero =>
    intro f acc v f' h
    simp only [parseInputs, Outcome.ok.injEq, Prod.mk.injEq] at h
    exact ⟨[], by simp [h.1], rfl, by simp⟩
  | succ n ih =>
    intro f acc v f' h
    rw [parseInputs, File.ReadBytes_hash] at h
    simp only [] at h
    split at h
    · exact Outcome.noConfusion h
    · rename_i hc
      split at h
      · exact Outcome.noConfusion h
      · obtain ⟨l, hl, hlen, hall⟩ := ih _ _ _ _ h
        refine ⟨_ :: l, by simpa using hl, by simp [hlen], ?_⟩
        intro x hx
        rcases List.mem_cons.mp hx with rfl | hx
        · refine ⟨?_, File.Read_length _ _, rfl⟩
          intro hi
          by_contra hne
          exact hc ⟨hi, hne⟩
        · exact hall x hx

theorem parseInputs_fatal (n : Nat) : ∀ (f : File) (acc : List TxInput) (i : Nat) (h : List Byte),
    parseInputs n f acc = .fatal i h → i = 0xFFFFFFFF ∧ h ≠ emptyByte ∧ h.length = 32 := by
  induction n with
  | zero =>
    intro f acc i h hp
    exact Outcome.noConfusion hp
  | succ n ih =>
    intro f acc i h hp
    rw [parseInputs, File.ReadBytes_hash] at hp
    simp only [] at hp
    split at hp
    · rename_i hc
      simp only [Outcome.fatal.injEq] at hp
      rw [← hp.1, ← hp.2]
      exact ⟨hc.1, hc.2, File.Read_length _ _⟩
    · split at hp
      · exact Outcome.noConfusion hp
      · exact ih _ _ _ _ hp

theorem parseOutputs_ok (n : Nat) : ∀ (i : Nat) (f : File) (acc v : List TxOutput) (f' : File),
    parseOutputs n i f acc = .ok (v, f') →
      ∃ l, v = acc ++ l ∧ l.length = n ∧ indexedFrom i l := by
  induction n with
  | zero =>
    intro i f acc v f' h
    simp only [parseOutputs, Outcome.ok.injEq, Prod.mk.injEq] at h
    exact ⟨[], by simp [h.1], rfl, trivial⟩
  | succ n ih =>
    intro i f acc v f' h
    rw [parseOutputs] at h
    split at h
    · exact Outcome.noConfusion h
    · obtain ⟨l, hl, hlen, hidx⟩ := ih _ _ _ _ _ h
      exact ⟨_ :: l, by simpa using hl, by simp [hlen], ⟨rfl, hidx⟩⟩

theorem parseOutputs_ne_fatal (n : Nat) : ∀ (i : Nat) (f : File) (acc : List TxOutput)
    (j : Nat) (k : List Byte), parseOutputs n i f acc ≠ .fatal j k := by
  induction n with
  | zero =>
    intro i f acc j k h
    exact Outcome.noConfusion h
  | succ n ih =>
    intro i f acc j k h
    rw [parseOutputs] at h
    split at h
    · exact Outcome.noConfusion h
    · exact ih _ _ _ _ _ h

theorem parseWitnessItems_ne_fatal (n : Nat) : ∀ (f : File) (acc : List (List Byte))
    (j : Nat) (k : List Byte), parseWitnessItems n f acc ≠ .fatal j k := by
  induction n with
  | zero =>
    intro f acc j k h
    exact Outcome.noConfusion h
  | succ n ih =>
    intro f acc j k h
    rw [parseWitnessItems] at h
    split at h
    · exact Outcome.noConfusion h
    · exact ih _ _ _ _ h

theorem indexedFrom_getElem (l : List TxOutput) : ∀ (i : Nat), indexedFrom i l →
    ∀ (k : Nat) (hk : k < l.length), l[k].Index = i + k := by
  induction l with
  | nil => intro i _ k hk; exact absurd hk (Nat.not_lt_zero _)
  | cons x xs ih =>
    intro i h k hk
    cases k with
    | zero => exact h.1
    | succ k =>
      have := ih (i + 1) h.2 k (by simpa using hk)
      simp only [List.getElem_cons_succ, this]
      omega

theorem map_noWitness_set (vin : List TxInput) : ∀ (i : Nat) (x y : TxInput),
    vin[i]? = some x → y.noWitness = x.noWitness →
      (vin.set i y).map TxInput.noWitness = vin.map TxInput.noWitness := by
  induction vin with
  | nil => intro i x y h; simp at h
  | cons z zs ih =>
    intro i x y h hy
    cases i with
    | zero =>
      simp only [List.getElem?_cons_zero, Option.some.injEq] at h
      simp [List.set, hy, h]
    | succ i =>
      simp only [List.getElem?_cons_succ] at h
      simp [List.set, ih i x y h hy]

theorem parseWitness_ok (n : Nat) : ∀ (i : Nat) (f : File) (vin v : List TxInput) (f' : File),
    parseWitness n i f vin = .ok (v, f') →
      v.map TxInput.noWitness = vin.map TxInput.noWitness := by
  induction n with
  | zero =>
    intro i f vin v f' h
    simp only [parseWitness, Outcome.ok.injEq, Prod.mk.injEq] at h
    rw [h.1]
  | succ n ih =>
    intro i f vin v f' h
    rw [parseWitness] at h
    cases hx : vin[i]? with
    | none =>
      rw [hx] at h
      exact Outcome.noConfusion h
    | some x =>
      rw [hx] at h
      simp only [] at h
      split at h
      · split at h
        · exact Outcome.noConfusion h
        · exact Outcome.noConfusion h
        · rw [ih _ _ _ _ _ h]
          exact map_noWitness_set vin i x _ hx rfl
      · exact Outcome.noConfusion h

theorem parseWitness_ne_fatal (n : Nat) : ∀ (i : Nat) (f : File) (vin : List TxInput)
    (j : Nat) (k : List Byte), parseWitness n i f vin ≠ .fatal j k := by
  induction n with
  | zero =>
    intro i f vin j k h
    exact Outcome.noConfusion h
  | succ n ih =>
    intro i f vin j k h
    rw [parseWitness] at h
    cases hx : vin[i]? with
    | none =>
      rw [hx] at h
      exact Outcome.noConfusion h
    | some x =>
      rw [hx] at h
      simp only [] at h
      split at h
      · split at h
        · rename_i hq
          exact parseWitnessItems_ne_fatal _ _ _ _ _ hq
        · exact Outcome.noConfusion h
        · exact ih _ _ _ _ _ h
      · exact Outcome.noConfusion h

theorem Read_one_eq (f : File) : (f.Read 1).1 = [f.ReadByte.1] := by
  have h := File.Read_length f 1
  simp only [File.ReadByte]
  cases hl : (f.Read 1).1 with
  | nil => rw [hl] at h; simp at h
  | cons b bs =>
    rw [hl] at h
    cases bs with
    | nil => rfl
    | cons c cs => simp at h

/-- The peek of `parseTransaction` always yields one byte, the one `ReadByte`
would return. -/
theorem parseTransaction_eq (f : File) :
    parseTransaction f =
      match parseInputs (parseHeader f.ReadInt32.2.ReadByte.1 f.ReadInt32.2).2.1
          (parseHeader f.ReadInt32.2.ReadByte.1 f.ReadInt32.2).2.2 [] with
      | .fatal i h => .fatal i h
      | .panic => .panic
      | .ok (vin, br1) =>
        parseTail f.ReadInt32.1 (parseHeader f.ReadInt32.2.ReadByte.1 f.ReadInt32.2).1
          (parseHeader f.ReadInt32.2.ReadByte.1 f.ReadInt32.2).2.1 vin br1 := by
  unfold parseTransaction
  simp only [File.Peek_eq, Read_one_eq, List.getElem?_cons_zero]

theorem parseTail_ok (ver : Int) (fl nvin : Nat) (vin : List TxInput) (f : File) (p : Parsed)
    (h : parseTail ver fl nvin vin f = .ok p) :
    p.err = none ∧ p.tx.Hash = none ∧
      p.tx.NVersion = ver ∧ p.tx.NVin = nvin ∧
      p.tx.Vin.map TxInput.noWitness = vin.map TxInput.noWitness ∧
      (fl % 2 = 0 → p.tx.Vin = vin) ∧
      p.tx.NVout = f.ReadVarint.1 % 2 ^ 32 ∧ p.tx.Vout.length = p.tx.NVout ∧
      indexedFrom 0 p.tx.Vout := by
  unfold parseTail at h
  simp only [] at h
  cases ho : parseOutputs (f.ReadVarint.1 % 2 ^ 32) 0 f.ReadVarint.2 [] with
  | fatal j k => rw [ho] at h; exact Outcome.noConfusion h
  | panic => rw [ho] at h; exact Outcome.noConfusion h
  | ok outs =>
    obtain ⟨vout, fo⟩ := outs
    rw [ho] at h
    simp only [] at h
    obtain ⟨l, hl, hll, hidx⟩ := parseOutputs_ok _ _ _ _ _ _ ho
    rw [List.nil_append] at hl
    by_cases c : fl % 2 = 1
    · rw [if_pos c] at h
      cases hw : parseWitness nvin 0 fo vin with
      | fatal j k => rw [hw] at h; exact Outcome.noConfusion h
      | panic => rw [hw] at h; exact Outcome.noConfusion h
      | ok w =>
        obtain ⟨v, f'⟩ := w
        rw [hw] at h
        simp only [Outcome.ok.injEq] at h
        have hv := parseWitness_ok _ _ _ _ _ _ hw
        rw [← h]
        refine ⟨rfl, rfl, rfl, rfl, hv, ?_, rfl, ?_, ?_⟩
        · intro h0; omega
        · simp only [hl, hll]
        · simp only [hl]; exact hidx
    · rw [if_neg c] at h
      simp only [Outcome.ok.injEq] at h
      rw [← h]
      refine ⟨rfl, rfl, rfl, rfl, rfl, fun _ => rfl, rfl, ?_, ?_⟩
      · simp only [hl, hll]
      · simp only [hl]; exact hidx

theorem parseTail_ne_fatal (ver : Int) (fl nvin : Nat) (vin : List TxInput) (f : File)
    (j : Nat) (k : List Byte) : parseTail ver fl nvin vin f ≠ .fatal j k := by
  intro h
  unfold parseTail at h
  simp only [] at h
  cases ho : parseOutputs (f.ReadVarint.1 % 2 ^ 32) 0 f.ReadVarint.2 [] with
  | fatal j k => exact parseOutputs_ne_fatal _ _ _ _ _ _ ho
  | panic => rw [ho] at h; exact Outcome.noConfusion h
  | ok outs =>
    obtain ⟨vout, fo⟩ := outs
    rw [ho] at h
    simp only [] at h
    by_cases c : fl % 2 = 1
    · rw [if_pos c] at h
      cases hw : parseWitness nvin 0 fo vin with
      | fatal j k => exact parseWitness_ne_fatal _ _ _ _ _ _ hw
      | panic => rw [hw] at h; exact Outcome.noConfusion h
      | ok w =>
        obtain ⟨v, f'⟩ := w
        rw [hw] at h
        exact Outcome.noConfusion h
    · rw [if_neg c] at h
      exact Outcome.noConfusion h

/-! ## Helper facts for the claims -/

theorem varint_small (n : Nat) (h : n ≤ 0xFC) : varint n = specVarint n := by
  unfold varint specVarint
  rw [if_neg (by omega), if_neg (by omega), if_neg (by omega), if_pos h,
    Nat.mod_eq_of_lt (by omega)]

theorem hashPreimage_small (T : Transaction) (hin : T.Vin.length ≤ 0xFC)
    (hout : T.Vout.length ≤ 0xFC) (hsi : ∀ x ∈ T.Vin, x.Script.length ≤ 0xFC)
    (hso : ∀ x ∈ T.Vout, x.Script.length ≤ 0xFC) :
    hashPreimage T = specEncodeNonWitness T := by
  unfold hashPreimage specEncodeNonWitness
  rw [varint_small _ hin, varint_small _ hout]
  have e1 : T.Vin.map getInputBinary = T.Vin.map specInputBinary := by
    apply List.map_congr_left
    intro x hx
    simp only [getInputBinary, specInputBinary, varint_small _ (hsi x hx)]
  have e2 : T.Vout.map getOutputBinary = T.Vout.map specOutputBinary := by
    apply List.map_congr_left
    intro x hx
    simp only [getOutputBinary, specOutputBinary, varint_small _ (hso x hx)]
  rw [e1, e2]

theorem map_noWitness_id (l : List TxInput) (h : ∀ x ∈ l, x.ScriptWitness = []) :
    l.map TxInput.noWitness = l := by
  induction l with
  | nil => rfl
  | cons x xs ih =>
    have hx := h x (List.mem_cons_self _ _)
    rw [List.map_cons, ih (fun y hy => h y (List.mem_cons_of_mem _ hy))]
    congr 1
    cases x
    simp only [TxInput.noWitness] at hx ⊢
    rw [hx]

theorem getInputBinary_congr (x y : TxInput) (h : x.Hash = y.Hash ∧ x.Index = y.Index ∧
    x.Script = y.Script ∧ x.Sequence = y.Sequence) : getInputBinary x = getInputBinary y := by
  unfold getInputBinary
  rw [h.1, h.2.1, h.2.2.1, h.2.2.2]

theorem map_getInputBinary_congr (l1 l2 : List TxInput)
    (h : List.Forall₂ (fun x y => x.Hash = y.Hash ∧ x.Index = y.Index ∧
      x.Script = y.Script ∧ x.Sequence = y.Sequence) l1 l2) :
    l1.map getInputBinary = l2.map getInputBinary := by
  induction h with
  | nil => rfl
  | cons h _ ih => rw [List.map_cons, List.map_cons, getInputBinary_congr _ _ h, ih]

theorem getInputBinary_noWitness (l : List TxInput) :
    (l.map TxInput.noWitness).map getInputBinary = l.map getInputBinary := by
  rw [List.map_map]
  rfl

theorem parseHeader_lt (p0 : Byte) (f : File) : (parseHeader p0 f).2.1 < 2 ^ 32 := by
  unfold parseHeader
  split
  · simp only []
    split
    · exact Nat.mod_lt _ (by decide)
    · show 0 < 2 ^ 32
      decide
  · exact Nat.mod_lt _ (by decide)

theorem coinbaseShape_of_noWitness (l v : List TxInput)
    (h : v.map TxInput.noWitness = l.map TxInput.noWitness)
    (hl : ∀ x ∈ l, x.coinbaseShape ∧ x.Hash.length = 32) :
    ∀ x ∈ v, x.coinbaseShape ∧ x.Hash.length = 32 := by
  intro x hx
  have hm : x.noWitness ∈ l.map TxInput.noWitness := by
    rw [← h]; exact List.mem_map_of_mem _ hx
  obtain ⟨y, hy, hxy⟩ := List.mem_map.mp hm
  have e1 : y.Hash = x.Hash := by have := congrArg TxInput.Hash hxy; exact this
  have e2 : y.Index = x.Index := by have := congrArg TxInput.Index hxy; exact this
  have := hl y hy
  unfold TxInput.coinbaseShape at this ⊢
  rw [e1, e2] at this
  exact this

/-- A transaction that `parseTransaction` returns comes with a `nil` error,
counts that match its lists, outputs indexed from 0 and inputs of coinbase
shape. -/
theorem parseTransaction_ok_shape (f : File) (p : Parsed) (h : parseTransaction f = .ok p) :
    p.err = none ∧ p.tx.Hash = none ∧
      p.tx.NVersion = f.ReadInt32.1 ∧
      p.tx.NVin = (parseHeader f.ReadInt32.2.ReadByte.1 f.ReadInt32.2).2.1 ∧
      p.tx.Vin.length = p.tx.NVin ∧ p.tx.NVin < 2 ^ 32 ∧
      p.tx.Vout.length = p.tx.NVout ∧ p.tx.NVout < 2 ^ 32 ∧ indexedFrom 0 p.tx.Vout ∧
      ∀ x ∈ p.tx.Vin, x.coinbaseShape ∧ x.Hash.length = 32 := by
  rw [parseTransaction_eq] at h
  cases hpi : parseInputs (parseHeader f.ReadInt32.2.ReadByte.1 f.ReadInt32.2).2.1
      (parseHeader f.ReadInt32.2.ReadByte.1 f.ReadInt32.2).2.2 [] with
  | fatal i k => rw [hpi] at h; exact Outcome.noConfusion h
  | panic => rw [hpi] at h; exact Outcome.noConfusion h
  | ok r =>
    obtain ⟨vin, br1⟩ := r
    rw [hpi] at h
    simp only [] at h
    obtain ⟨l, hl, hlen, hall⟩ := parseInputs_ok _ _ _ _ _ hpi
    rw [List.nil_append] at hl
    subst hl
    obtain ⟨herr, hh, hver, hnvin, hvin, _, hnvout, hvout, hidx⟩ :=
      parseTail_ok _ _ _ _ _ _ h
    refine ⟨herr, hh, hver, hnvin, ?_, ?_, hvout, ?_, hidx, ?_⟩
    · rw [hnvin, ← hlen]
      have := congrArg List.length hvin
      simpa using this
    · rw [hnvin]; exact parseHeader_lt _ _
    · rw [hnvout]; exact Nat.mod_lt _ (by decide)
    · exact coinbaseShape_of_noWitness vin p.tx.Vin hvin (fun x hx => ⟨(hall x hx).1, (hall x hx).2.1⟩)

/-- A run of `parseTransaction` that ends in `log.Fatal` logged the index
`0xFFFFFFFF` and a 32-byte hash that is not all zero. -/
theorem parseTransaction_fatal_shape (f : File) (i : Nat) (k : List Byte)
    (h : parseTransaction f = .fatal i k) :
    i = 0xFFFFFFFF ∧ k ≠ emptyByte ∧ k.length = 32 := by
  rw [parseTransaction_eq] at h
  cases hpi : parseInputs (parseHeader f.ReadInt32.2.ReadByte.1 f.ReadInt32.2).2.1
      (parseHeader f.ReadInt32.2.ReadByte.1 f.ReadInt32.2).2.2 [] with
  | fatal j l =>
    rw [hpi] at h
    simp only [Outcome.fatal.injEq] at h
    rw [← h.1, ← h.2]
    exact parseInputs_fatal _ _ _ _ _ hpi
  | panic => rw [hpi] at h; exact Outcome.noConfusion h
  | ok r =>
    obtain ⟨vin, br1⟩ := r
    rw [hpi] at h
    simp only [] at h
    exact absurd h (parseTail_ne_fatal _ _ _ _ _ _ _)

theorem parseInputs_bad (pre : List TxInput) :
    ∀ (n : Nat) (acc : List TxInput) (f : File) (hash t : List Byte), pre.length < n →
      (∀ x ∈ pre, x.valid) → hash.length = 32 → hash ≠ emptyByte →
      f.rest = (pre.map specInputBinary).flatten ++ (hash ++ (putLE 4 0xFFFFFFFF ++ t)) →
      parseInputs n f acc = .fatal 0xFFFFFFFF hash := by
  induction pre with
  | nil =>
    intro n acc f hash t hn _ hlen hne h
    obtain ⟨m, rfl⟩ : ∃ m, n = m + 1 := ⟨n - 1, by simp at hn; omega⟩
    simp only [List.map_nil, List.flatten_nil, List.nil_append] at h
    obtain ⟨f1, e1, r1⟩ := reads_ReadBytes hash (by rw [hlen]; decide) f _ h
    rw [hlen] at e1
    have h2 := reads_ReadUint32 0xFFFFFFFF (by decide) _ _ r1
    rw [parseInputs, e1]
    simp only []
    rw [h2.1, if_pos ⟨rfl, hne⟩]
  | cons x xs ih =>
    intro n acc f hash t hn hv hlen' hne h
    obtain ⟨m, rfl⟩ : ∃ m, n = m + 1 := ⟨n - 1, by simp at hn; omega⟩
    obtain ⟨hlen, hidx, hscr, hseq, hcb⟩ := hv x (List.mem_cons_self _ _)
    simp only [List.map_cons, List.flatten_cons, specInputBinary, List.append_assoc] at h
    obtain ⟨f1, e1, r1⟩ := reads_ReadBytes x.Hash (by rw [hlen]; decide) f _ h
    rw [hlen] at e1
    have h2 := reads_ReadUint32 x.Index hidx _ _ r1
    have h3 := reads_ReadVarint x.Script.length (Nat.lt_of_le_of_lt hscr maxAlloc_lt) _ _ h2.2
    obtain ⟨f4, e4, r4⟩ := reads_ReadBytes x.Script hscr _ _ h3.2
    rw [← h3.1] at e4
    have h5 := reads_ReadUint32 x.Sequence hseq _ _ r4
    rw [parseInputs, e1]
    simp only []
    rw [h2.1, if_neg (by intro hc; exact hc.2 (hcb hc.1)), e4]
    simp only []
    exact ih m _ _ hash t (by simp at hn; omega)
      (fun y hy => hv y (List.mem_cons_of_mem _ hy)) hlen' hne h5.2

theorem smallParsed_ok : parseTransaction (fileOf (hashPreimage smallTx)) = .ok smallParsed := by
  decide

/-- On `hugeScriptStream` the script length read is `2 ^ 64 - 1`, and
`parseTransaction` panics in the `make` of `ReadBytes`. -/
theorem parseTransaction_hugeScript_panics :
    (fileOf (hugeScriptStream.drop 41)).ReadVarint.1 = 2 ^ 64 - 1 ∧
      parseTransaction (fileOf hugeScriptStream) = .panic := by
  decide

/-- On `zeroFlagHugeStream`, with marker, zero flag and an output whose script
length reads `2 ^ 64 - 1`, `parseTransaction` panics in the `make` of
`ReadBytes`. -/
theorem parseTransaction_zeroFlagHuge_panics :
    parseTransaction (fileOf zeroFlagHugeStream) = .panic := by
  decide

/-! ## The claims -/

/-- Claim C1 (the code departs from it): at the first value of each multi-byte
range the encoder `varint` does not produce the CompactSize layout.  It keeps
`0xFD` on one byte where the layout is `FD FD 00`, and writes the multi-byte
forms most significant byte first: `0x10000` becomes `FE 00 01 00 00`, not
`FE 00 00 01 00`, and `0x100000000` becomes `FF 00 00 00 01 00 00 00 00`. -/
theorem varint_misses_compactSize :
    varint 0xFD = [0xFD] ∧ specVarint 0xFD = [0xFD, 0xFD, 0x00] ∧
    varint 0x10000 = [0xFE, 0x00, 0x01, 0x00, 0x00] ∧
    specVarint 0x10000 = [0xFE, 0x00, 0x00, 0x01, 0x00] ∧
    varint 0x100000000 = [0xFF, 0, 0, 0, 1, 0, 0, 0, 0] ∧
    specVarint 0x100000000 = [0xFF, 0, 0, 0, 0, 1, 0, 0, 0] := by
  decide

/-- Claim C2 (the code departs from it): `ReadVarint` does not give back what
`varint` wrote.  On `varint 0xFD`, the single byte `FD`, it reads 0 and leaves
the cursor after that byte; on `varint 0x10000` it reads `0x100`; on
`varint 0x100000000` it reads `0x1000000`. -/
theorem ReadVarint_varint_loses_value :
    (fileOf (varint 0xFD)).ReadVarint = (0, { data := [0xFD], pos := 1 }) ∧
    (fileOf (varint 0x10000)).ReadVarint.1 = 0x100 ∧
    (fileOf (varint 0x100000000)).ReadVarint.1 = 0x1000000 := by
  decide

/-- Claim C3, counterexample: the well-formed transaction `emptyTx` has no
input, so the bytes `putTransactionHash` builds for it carry `0x00` right
after the version; `parseTransaction` takes that byte for the SegWit marker
and returns five outputs and locktime 0 where `emptyTx` has no output and
locktime 5. -/
theorem parse_hashPreimage_no_inputs :
    emptyTx.valid ∧
    parseTransaction (fileOf (hashPreimage emptyTx)) = .ok
      { tx := { Hash := none, NVersion := 1, NVin := 0, Vin := [], NVout := 5,
                Vout := [⟨0, 0, []⟩, ⟨1, 0, []⟩, ⟨2, 0, []⟩, ⟨3, 0, []⟩, ⟨4, 0, []⟩],
                Locktime := 0 },
        err := none, br := { data := [1, 0, 0, 0, 0, 0, 5, 0, 0, 0], pos := 10 } } ∧
    emptyTx.Vout = [] ∧ emptyTx.Locktime = 5 := by
  decide

/-- Claim C3, as amended: for every well-formed non-witness transaction `T`
with at least one input, whose input count, output count and script lengths
are at most `0xFC`, parsing the bytes that `putTransactionHash` builds for
`T` (followed by any bytes `t`) returns, with a `nil` error, a transaction
equal to `T` in version, inputs, outputs and locktime, and stops right
before `t`. -/
theorem parse_hashPreimage_roundtrip (T : Transaction) (f : File) (t : List Byte)
    (hv : T.valid) (hne : T.Vin ≠ []) (hnw : ∀ x ∈ T.Vin, x.ScriptWitness = [])
    (hin : T.Vin.length ≤ 0xFC) (hout : T.Vout.length ≤ 0xFC)
    (hsi : ∀ x ∈ T.Vin, x.Script.length ≤ 0xFC) (hso : ∀ x ∈ T.Vout, x.Script.length ≤ 0xFC)
    (h : f.rest = hashPreimage T ++ t) :
    ∃ p, parseTransaction f = .ok p ∧ p.err = none ∧ p.tx.NVersion = T.NVersion ∧
      p.tx.Vin = T.Vin ∧ p.tx.Vout = T.Vout ∧ p.tx.Locktime = T.Locktime ∧ p.br.rest = t := by
  rw [hashPreimage_small T hin hout hsi hso] at h
  obtain ⟨fin, hp, hr⟩ := parseTransaction_legacy T f t hv hne h
  exact ⟨_, hp, rfl, rfl, map_noWitness_id _ hnw, rfl, rfl, hr⟩

/-- The amended claim C3 at the transaction `smallTx`. -/
theorem parse_hashPreimage_roundtrip_witness :
    ∃ p, parseTransaction (fileOf (hashPreimage smallTx)) = .ok p ∧ p.err = none ∧
      p.tx.NVersion = smallTx.NVersion ∧ p.tx.Vin = smallTx.Vin ∧ p.tx.Vout = smallTx.Vout ∧
      p.tx.Locktime = smallTx.Locktime ∧ p.br.rest = [] :=
  parse_hashPreimage_roundtrip smallTx (fileOf (hashPreimage smallTx)) [] (by decide)
    (by decide) (by decide) (by decide) (by decide) (by decide) (by decide) (by decide)

set_option maxRecDepth 100000 in
/-- Claim C4 (the code departs from it): for the transaction `longScriptTx`,
whose input script has 253 bytes, `putTransactionHash` hashes a byte string
that is not the non-witness encoding of section 4.3.  At offset 41, where the
script length stands, the code has the single byte `FD` (followed by script
bytes) and the encoding has `FD FD 00`; the two strings have 304 and 306
bytes. -/
theorem putTransactionHash_preimage_differs :
    (∀ sha : List Byte → List Byte,
      (putTransactionHash sha longScriptTx).Hash = some (sha (hashPreimage longScriptTx))) ∧
    hashPreimage longScriptTx ≠ specEncodeNonWitness longScriptTx ∧
    ((hashPreimage longScriptTx).drop 41).take 3 = [0xFD, 0x00, 0x00] ∧
    ((specEncodeNonWitness longScriptTx).drop 41).take 3 = [0xFD, 0xFD, 0x00] ∧
    (hashPreimage longScriptTx).length = 304 ∧
    (specEncodeNonWitness longScriptTx).length = 306 :=
  ⟨fun _ => rfl, by decide, by decide, by decide, by decide, by decide⟩

/-- Claim C5: two transactions with unset txid that agree on version,
locktime, outputs and, input by input, on hash, index, script and sequence
get the same hashed byte string from `putTransactionHash`, whatever their
witness stacks; `putTransactionHash` stores in each the hash of that byte
string as txid, leaving the other fields as they are, so both get the same
txid. -/
theorem txid_ignores_witness (sha : List Byte → List Byte) (a b : Transaction)
    (ha : a.Hash = none) (hb : b.Hash = none) (hver : a.NVersion = b.NVersion)
    (hlock : a.Locktime = b.Locktime) (hout : a.Vout = b.Vout)
    (hin : List.Forall₂ (fun x y => x.Hash = y.Hash ∧ x.Index = y.Index ∧
      x.Script = y.Script ∧ x.Sequence = y.Sequence) a.Vin b.Vin) :
    hashPreimage a = hashPreimage b ∧
      putTransactionHash sha a = { a with Hash := some (sha (hashPreimage a)) } ∧
      putTransactionHash sha b = { b with Hash := some (sha (hashPreimage b)) } ∧
      (putTransactionHash sha a).Hash = some (sha (hashPreimage a)) ∧
      (putTransactionHash sha b).Hash = some (sha (hashPreimage a)) := by
  have e := map_getInputBinary_congr a.Vin b.Vin hin
  have hpre : hashPreimage a = hashPreimage b := by
    unfold hashPreimage
    rw [hver, hlock, hout, e, hin.length_eq]
  refine ⟨hpre, ?_, ?_, ?_, ?_⟩
  · unfold putTransactionHash
    rw [ha]
  · unfold putTransactionHash
    rw [hb]
  · unfold putTransactionHash
    rw [ha]
  · unfold putTransactionHash
    rw [hb, hpre]

/-- Claim C5 at `smallTx` and `smallTxWitness`, which differ in the witness
stack of their input only; byte reversal stands for the hash. -/
theorem txid_ignores_witness_witness :
    smallTx.Vin ≠ smallTxWitness.Vin ∧
      hashPreimage smallTx = hashPreimage smallTxWitness ∧
      (putTransactionHash (fun bs => bs.reverse) smallTx).Hash
        = some (hashPreimage smallTx).reverse ∧
      (putTransactionHash (fun bs => bs.reverse) smallTxWitness).Hash
        = some (hashPreimage smallTx).reverse :=
  ⟨by decide,
   (txid_ignores_witness (fun bs => bs.reverse) smallTx smallTxWitness rfl rfl rfl rfl
      rfl (List.Forall₂.cons ⟨rfl, rfl, rfl, rfl⟩ List.Forall₂.nil)).1,
   (txid_ignores_witness (fun bs => bs.reverse) smallTx smallTxWitness rfl rfl rfl rfl
      rfl (List.Forall₂.cons ⟨rfl, rfl, rfl, rfl⟩ List.Forall₂.nil)).2.2.2.1,
   (txid_ignores_witness (fun bs => bs.reverse) smallTx smallTxWitness rfl rfl rfl rfl
      rfl (List.Forall₂.cons ⟨rfl, rfl, rfl, rfl⟩ List.Forall₂.nil)).2.2.2.2⟩

/-- Claim C6, counterexample: on a stream with marker `0x00` and flag `0x00`
after the version, `parseTransaction` returns a transaction (no input, the
one output that follows, locktime 7) and a `nil` error. -/
theorem parseTransaction_zero_flag_returns :
    parseTransaction (fileOf [1, 0, 0, 0, 0x00, 0x00, 1, 9, 0, 0, 0, 0, 0, 0, 0, 0, 7, 0, 0, 0])
      = .ok { tx := { Hash := none, NVersion := 1, NVin := 0, Vin := [], NVout := 1,
                      Vout := [⟨0, 9, []⟩], Locktime := 7 },
              err := none,
              br := { data := [1, 0, 0, 0, 0x00, 0x00, 1, 9, 0, 0, 0, 0, 0, 0, 0, 0, 7, 0, 0, 0],
                      pos := 20 } } := by
  decide

/-- Claim C6, as amended: when the byte after the version is `0x00` and the
flag byte after it is zero, `parseTransaction` raises no error.  It never ends
in `log.Fatal`; a transaction it returns comes with a `nil` error, has no
input (`NVin = 0`) and has its output count taken from the bytes `t` right
after the flag; it panics exactly when the output loop, run on `t`, panics in
`make` on a script length beyond `maxAlloc`; and when `t` holds well-formed
outputs `outs` in CompactSize layout and a locktime, it returns the
transaction without inputs that carries them. -/
theorem parseTransaction_zero_flag (f : File) (ver t : List Byte) (hver : ver.length = 4)
    (h : f.rest = ver ++ 0 :: 0 :: t) :
    (∀ i k, parseTransaction f ≠ .fatal i k) ∧
    (∀ p, parseTransaction f = .ok p → p.err = none ∧ p.tx.NVin = 0 ∧ p.tx.Vin = [] ∧
      p.tx.NVout = (fileOf t).ReadVarint.1 % 2 ^ 32 ∧ p.tx.Vout.length = p.tx.NVout) ∧
    (parseTransaction f = .panic ↔
      parseOutputs ((fileOf t).ReadVarint.1 % 2 ^ 32) 0 (fileOf t).ReadVarint.2 [] = .panic) ∧
    (∀ (outs : List TxOutput) (lock : Nat) (t' : List Byte), (∀ x ∈ outs, x.valid) →
      indexedFrom 0 outs → outs.length < 2 ^ 32 → lock < 2 ^ 32 →
      t = specVarint outs.length ++ (outs.map specOutputBinary).flatten ++ putLE 4 lock ++ t' →
      ∃ fin, parseTransaction f = .ok
          { tx := { Hash := none, NVersion := toInt32 (leUint ver), NVin := 0, Vin := [],
                    NVout := outs.length, Vout := outs, Locktime := lock },
            err := none, br := fin } ∧ fin.rest = t') := by
  have h1 := File.Read_append f ver _ h
  rw [hver] at h1
  have h1r : f.ReadInt32.2.rest = 0 :: 0 :: t := h1.2
  have hv : f.ReadInt32.1 = toInt32 (leUint ver) := by
    simp only [File.ReadInt32, h1.1]
  have hm := reads_ReadByte 0 f.ReadInt32.2 (0 :: t) h1r
  have hfl := reads_ReadByte 0 f.ReadInt32.2.ReadByte.2 t hm.2
  have hhd : parseHeader f.ReadInt32.2.ReadByte.1 f.ReadInt32.2
      = (0, 0, f.ReadInt32.2.ReadByte.2.ReadByte.2) := by
    unfold parseHeader
    rw [if_pos hm.1]
    simp only [hfl.1, ne_eq, not_true_eq_false, if_false]
  have hpt : parseTransaction f
      = parseTail f.ReadInt32.1 0 0 [] f.ReadInt32.2.ReadByte.2.ReadByte.2 := by
    rw [parseTransaction_eq, hhd]
    simp only [parseInputs]
  have hz : ZeroExt f.ReadInt32.2.ReadByte.2.ReadByte.2 (fileOf t) :=
    ZeroExt.of_rest_eq (by rw [hfl.2]; rfl)
  have hs := ReadVarint_sim hz
  refine ⟨?_, ?_, ?_, ?_⟩
  · intro i k
    rw [hpt]
    exact parseTail_ne_fatal _ _ _ _ _ _ _
  · intro p hp
    rw [hpt] at hp
    obtain ⟨herr, _, _, hnvin, hvin, _, hnvout, hlen, _⟩ := parseTail_ok _ _ _ _ _ _ hp
    refine ⟨herr, hnvin, by simpa using hvin, ?_, hlen⟩
    rw [hnvout, hs.1]
  · rw [hpt, hs.1]
    have ho := parseOutputs_sim (f.ReadInt32.2.ReadByte.2.ReadByte.2.ReadVarint.1 % 2 ^ 32) 0 []
      hs.2
    unfold parseTail
    simp only []
    rcases OutSim.cases ho with ⟨v, a, b, ea, eb, _⟩ | ⟨j, k, ea, eb⟩ | ⟨ea, eb⟩
    · rw [ea, eb]
      simp only [Nat.zero_mod, OfNat.zero_ne_ofNat, if_false]
      constructor <;> intro hc <;> exact Outcome.noConfusion hc
    · exact absurd ea (parseOutputs_ne_fatal _ _ _ _ _ _)
    · rw [ea, eb]
      simp only []
  · intro outs lock t' hvo hidx hn hl ht
    rw [ht, List.append_assoc, List.append_assoc] at hfl
    have h3 := reads_ReadVarint outs.length (by omega) _ _ hfl.2
    obtain ⟨f4, hf4, hr4⟩ := parseOutputs_spec outs 0 [] _ _ hvo hidx h3.2
    have h5 := reads_ReadUint32 lock hl _ _ hr4
    refine ⟨_, ?_, h5.2⟩
    rw [hpt, hv]
    unfold parseTail
    simp only []
    rw [h3.1, Nat.mod_eq_of_lt hn, hf4]
    simp [h5.1]

/-- The amended claim C6 at a stream of version 2, marker, zero flag, one
output of value 9 with the script `03`, and locktime 7. -/
theorem parseTransaction_zero_flag_witness :
    ∃ fin, parseTransaction (fileOf [2, 0, 0, 0, 0, 0, 1, 9, 0, 0, 0, 0, 0, 0, 0, 1, 3, 7, 0, 0, 0])
        = .ok { tx := { Hash := none, NVersion := toInt32 (leUint [2, 0, 0, 0]), NVin := 0,
                        Vin := [], NVout := [(⟨0, 9, [3]⟩ : TxOutput)].length,
                        Vout := [⟨0, 9, [3]⟩], Locktime := 7 },
                err := none, br := fin } ∧ fin.rest = [] :=
  (parseTransaction_zero_flag
    (fileOf [2, 0, 0, 0, 0, 0, 1, 9, 0, 0, 0, 0, 0, 0, 0, 1, 3, 7, 0, 0, 0]) [2, 0, 0, 0]
    [1, 9, 0, 0, 0, 0, 0, 0, 0, 1, 3, 7, 0, 0, 0] rfl rfl).2.2.2 [⟨0, 9, [3]⟩] 7 []
    (by decide) (by decide) (by decide) (by decide) (by decide)

/-- Claim C7: `parseTransaction` enforces the coinbase shape on every input.
Every input of a returned transaction has an all-zero hash when its index is
`0xFFFFFFFF`; a run that ends in `log.Fatal` logged an index `0xFFFFFFFF` with
a 32-byte hash that is not all zero; a legacy stream whose input number
`pre.length` (after well-formed inputs `pre`) has index `0xFFFFFFFF` and a
hash that is not all zero ends in `log.Fatal` on that input; and a
transaction whose input has an all-zero hash and index `0xFFFFFFFF` is
returned, whatever the sequence `seq`. -/
theorem parseTransaction_coinbase_shape (f : File) :
    (∀ p, parseTransaction f = .ok p →
      ∀ x ∈ p.tx.Vin, ¬ (x.Index = 0xFFFFFFFF ∧ x.Hash ≠ emptyByte)) ∧
    (∀ i h, parseTransaction f = .fatal i h →
      i = 0xFFFFFFFF ∧ h.length = 32 ∧ h ≠ emptyByte) ∧
    (∀ (ver : Int) (n : Nat) (pre : List TxInput) (hash t : List Byte),
      -2 ^ 31 ≤ ver → ver < 2 ^ 31 → n < 2 ^ 32 → pre.length < n → (∀ x ∈ pre, x.valid) →
      hash.length = 32 → hash ≠ emptyByte →
      f.rest = putLE 4 (toUint32 ver) ++ specVarint n ++ (pre.map specInputBinary).flatten
        ++ hash ++ putLE 4 0xFFFFFFFF ++ t →
      parseTransaction f = .fatal 0xFFFFFFFF hash) ∧
    (∀ (T : Transaction) (script : List Byte) (seq : Nat) (t : List Byte), T.valid →
      T.Vin = [⟨emptyByte, 0xFFFFFFFF, script, seq, []⟩] →
      f.rest = specEncodeNonWitness T ++ t →
      ∃ p, parseTransaction f = .ok p ∧ p.err = none ∧ p.tx.Vin = T.Vin) := by
  refine ⟨?_, ?_, ?_, ?_⟩
  · intro p hp x hx hc
    obtain ⟨_, _, _, _, _, _, _, _, _, hall⟩ := parseTransaction_ok_shape f p hp
    exact hc.2 ((hall x hx).1 hc.1)
  · intro i h hp
    obtain ⟨h1, h2, h3⟩ := parseTransaction_fatal_shape f i h hp
    exact ⟨h1, h3, h2⟩
  · intro ver n pre hash t hv1 hv2 hn hlt hpre hlen hne h
    obtain ⟨b, bs, hb, hb0⟩ := specVarint_head n (by omega)
    simp only [List.append_assoc] at h
    have h1 := reads_ReadInt32 ver hv1 hv2 f _ h
    have hpk := reads_ReadByte b f.ReadInt32.2 _ (by rw [h1.2, hb]; rfl)
    have h2 := reads_ReadVarint n (by omega) _ _ h1.2
    rw [parseTransaction_eq, hpk.1]
    simp only [parseHeader, if_neg hb0]
    rw [h2.1, Nat.mod_eq_of_lt hn, parseInputs_bad pre n [] _ hash t hlt hpre hlen hne h2.2]
  · intro T script seq t hv hvin h
    obtain ⟨fin, hp, _⟩ := parseTransaction_legacy T f t hv (by rw [hvin]; simp) h
    refine ⟨_, hp, rfl, ?_⟩
    simp only [hvin, List.map_cons, List.map_nil, TxInput.noWitness]

/-- Claim C7 at `badCoinbaseStream`, which ends in `log.Fatal`, and at the
encoding of `coinbaseTx`, which is returned. -/
theorem parseTransaction_coinbase_shape_witness :
    parseTransaction (fileOf badCoinbaseStream) = .fatal 0xFFFFFFFF (List.replicate 32 9) ∧
    ∃ p, parseTransaction (fileOf (specEncodeNonWitness coinbaseTx)) = .ok p ∧ p.err = none ∧
      p.tx.Vin = coinbaseTx.Vin :=
  ⟨(parseTransaction_coinbase_shape (fileOf badCoinbaseStream)).2.2.1 1 1 []
      (List.replicate 32 9) [] (by decide) (by decide) (by decide) (by decide) (by decide)
      (by decide) (by decide) (by decide),
   (parseTransaction_coinbase_shape (fileOf (specEncodeNonWitness coinbaseTx))).2.2.2
      coinbaseTx [4, 1] 5 [] (by decide) rfl (by decide)⟩

/-- Claim C8, counterexample: on `truncatedStream`, where the script length
says 5 and only two bytes follow, `parseTransaction` returns a `nil` error and
a transaction whose script is the two bytes followed by three zeros, with
sequence, output count and locktime read as zero; and on `hugeScriptStream`,
which ends after a script length of `2 ^ 64 - 1`, it panics. -/
theorem parseTransaction_truncated_returns :
    parseTransaction (fileOf truncatedStream) = .ok
      { tx := { Hash := none, NVersion := 1, NVin := 1,
                Vin := [{ Hash := List.replicate 32 9, Index := 0, Script := [7, 7, 0, 0, 0],
                          Sequence := 0, ScriptWitness := [] }],
                NVout := 0, Vout := [], Locktime := 0 },
        err := none, br := { data := truncatedStream, pos := 44 } } ∧
    parseTransaction (fileOf hugeScriptStream) = .panic := by
  decide

/-- Claim C8, as amended: a source that ends early raises no error.  A read
on an exhausted source returns zeros, as long as `make` serves the buffer;
and on a source `f`, `parseTransaction` ends exactly as on any source `g` that
continues `f` with zero bytes: if it returns, the error is `nil` and the
transaction is the one returned for `g`; if it ends in `log.Fatal`, so does
the run on `g`; if it panics, so does the run on `g`.  In particular, when
`g` holds the encoding of a well-formed transaction `T`, the run on `f`
returns `T`. -/
theorem parseTransaction_short_source (f g : File) (m : Nat)
    (h : g.rest = f.rest ++ List.replicate m 0) :
    (∀ n, f.rest = [] → (f.Read n).1 = List.replicate n 0 ∧
      (n ≤ maxAlloc → (f.ReadBytes n).map Prod.fst = some (List.replicate n 0)) ∧
      (maxAlloc < n → f.ReadBytes n = none)) ∧
    (∀ p, parseTransaction f = .ok p →
      p.err = none ∧ ∃ q, parseTransaction g = .ok q ∧ q.tx = p.tx ∧ q.err = none) ∧
    (∀ i k, parseTransaction f = .fatal i k → parseTransaction g = .fatal i k) ∧
    (parseTransaction f = .panic → parseTransaction g = .panic) ∧
    (∀ (T : Transaction) (t : List Byte), T.valid → T.Vin ≠ [] →
      g.rest = specEncodeNonWitness T ++ t →
      ∃ p, parseTransaction f = .ok p ∧ p.err = none ∧
        p.tx = { Hash := none, NVersion := T.NVersion, NVin := T.Vin.length,
                 Vin := T.Vin.map TxInput.noWitness, NVout := T.Vout.length, Vout := T.Vout,
                 Locktime := T.Locktime }) := by
  have hs := parseTransaction_sim (f := f) (g := g) ⟨m, h⟩
  refine ⟨?_, ?_, ?_, ?_, ?_⟩
  · intro n hr
    have e : (f.Read n).1 = List.replicate n 0 := by
      rw [File.Read_fst, hr]
      simp
    refine ⟨e, ?_, ?_⟩
    · intro hn
      rw [File.ReadBytes_some f n hn, Option.map_some', e]
    · intro hn
      exact File.ReadBytes_none f n (by omega)
  · intro p hp
    rw [hp] at hs
    have herr : p.err = none := (parseTransaction_ok_shape f p hp).1
    refine ⟨herr, ?_⟩
    cases hq : parseTransaction g with
    | ok q =>
      rw [hq] at hs
      exact ⟨q, rfl, hs.1, by rw [hs.2.1, herr]⟩
    | fatal _ _ => rw [hq] at hs; exact hs.elim
    | panic => rw [hq] at hs; exact hs.elim
  · intro i k hp
    rw [hp] at hs
    cases hq : parseTransaction g with
    | ok q => rw [hq] at hs; exact hs.elim
    | fatal j l =>
      rw [hq] at hs
      rw [hs.1, hs.2]
    | panic => rw [hq] at hs; exact hs.elim
  · intro hp
    rw [hp] at hs
    cases hq : parseTransaction g with
    | ok q => rw [hq] at hs; exact hs.elim
    | fatal j l => rw [hq] at hs; exact hs.elim
    | panic => rfl
  · intro T t hv hne hg
    obtain ⟨fin, hq, _⟩ := parseTransaction_legacy T g t hv hne hg
    rw [hq] at hs
    cases hp : parseTransaction f with
    | ok p =>
      rw [hp] at hs
      exact ⟨p, rfl, (parseTransaction_ok_shape f p hp).1, hs.1.symm⟩
    | fatal _ _ => rw [hp] at hs; exact hs.elim
    | panic => rw [hp] at hs; exact hs.elim

/-- The amended claim C8 at `truncatedStream` and its continuation by 20
zero bytes. -/
theorem parseTransaction_short_source_witness :
    ∃ q, parseTransaction (fileOf (truncatedStream ++ List.replicate 20 0)) = .ok q ∧
      q.tx = { Hash := none, NVersion := 1, NVin := 1,
               Vin := [{ Hash := List.replicate 32 9, Index := 0, Script := [7, 7, 0, 0, 0],
                         Sequence := 0, ScriptWitness := [] }],
               NVout := 0, Vout := [], Locktime := 0 } ∧ q.err = none :=
  ((parseTransaction_short_source (fileOf truncatedStream)
      (fileOf (truncatedStream ++ List.replicate 20 0)) 20 rfl).2.1 _
      (show parseTransaction (fileOf truncatedStream) = .ok
        { tx := { Hash := none, NVersion := 1, NVin := 1,
                  Vin := [{ Hash := List.replicate 32 9, Index := 0, Script := [7, 7, 0, 0, 0],
                            Sequence := 0, ScriptWitness := [] }],
                  NVout := 0, Vout := [], Locktime := 0 },
          err := none, br := { data := truncatedStream, pos := 44 } } by decide)).2

/-- Claim C9, counterexample: for the transaction `emptyTx`, without inputs,
the extended stream (flag 1, no witness stack) parses to no output and
locktime 5, while the stream with marker and flag removed parses to five
outputs and locktime 0: its count byte `0x00` is read as a marker. -/
theorem segwit_zero_inputs_differs :
    specEncodeExtended 1 emptyTx = [1, 0, 0, 0, 0x00, 0x01, 0, 0, 5, 0, 0, 0] ∧
    specEncodeNonWitness emptyTx = [1, 0, 0, 0, 0, 0, 5, 0, 0, 0] ∧
    parseTransaction (fileOf (specEncodeExtended 1 emptyTx)) = .ok
      { tx := { Hash := none, NVersion := 1, NVin := 0, Vin := [], NVout := 0, Vout := [],
                Locktime := 5 },
        err := none, br := { data := [1, 0, 0, 0, 0x00, 0x01, 0, 0, 5, 0, 0, 0], pos := 12 } } ∧
    parseTransaction (fileOf (specEncodeNonWitness emptyTx)) = .ok
      { tx := { Hash := none, NVersion := 1, NVin := 0, Vin := [], NVout := 5,
                Vout := [⟨0, 0, []⟩, ⟨1, 0, []⟩, ⟨2, 0, []⟩, ⟨3, 0, []⟩, ⟨4, 0, []⟩],
                Locktime := 0 },
        err := none, br := { data := [1, 0, 0, 0, 0, 0, 5, 0, 0, 0], pos := 10 } } := by
  decide

/-- Claim C9, as amended: for every well-formed transaction `T` with at least
one input, and every flag with bit 0 set, `parseTransaction` on the extended
stream of `T` (CompactSize counts and lengths) and on the stream with marker,
flag and witness stacks removed returns the same version, the same inputs up
to the witness (hash, index, script, sequence), the same outputs and
locktime; the extended parse attaches to the input at each position the
witness stack at that position, items in order; and `putTransactionHash`
gives both the same txid. -/
theorem segwit_parse_matches_legacy (sha : List Byte → List Byte) (T : Transaction)
    (flag : Nat) (fE fL : File) (tE tL : List Byte)
    (hv : T.valid) (hw : ∀ x ∈ T.Vin, x.validWitness) (hne : T.Vin ≠ [])
    (hflag : flag % 2 = 1)
    (hE : fE.rest = specEncodeExtended flag T ++ tE)
    (hL : fL.rest = specEncodeNonWitness T ++ tL) :
    ∃ pE pL, parseTransaction fE = .ok pE ∧ parseTransaction fL = .ok pL ∧
      pE.tx.NVersion = pL.tx.NVersion ∧
      List.Forall₂ (fun x y => x.Hash = y.Hash ∧ x.Index = y.Index ∧ x.Script = y.Script ∧
        x.Sequence = y.Sequence) pE.tx.Vin pL.tx.Vin ∧
      pE.tx.Vout = pL.tx.Vout ∧ pE.tx.Locktime = pL.tx.Locktime ∧
      pE.tx.Vin.map TxInput.ScriptWitness = T.Vin.map TxInput.ScriptWitness ∧
      (putTransactionHash sha pE.tx).Hash = (putTransactionHash sha pL.tx).Hash ∧
      pE.br.rest = tE ∧ pL.br.rest = tL := by
  obtain ⟨finE, hpE, hrE⟩ := parseTransaction_extended T flag fE tE hv hw hflag hE
  obtain ⟨finL, hpL, hrL⟩ := parseTransaction_legacy T fL tL hv hne hL
  refine ⟨_, _, hpE, hpL, rfl, ?_, rfl, rfl, rfl, ?_, hrE, hrL⟩
  · simp only [List.forall₂_map_right_iff]
    exact List.forall₂_same.mpr (fun x _ => ⟨rfl, rfl, rfl, rfl⟩)
  · simp only [putTransactionHash, hashPreimage, getInputBinary_noWitness, List.length_map]

/-- The amended claim C9 at `smallTxWitness` with flag 1. -/
theorem segwit_parse_matches_legacy_witness :
    ∃ pE pL, parseTransaction (fileOf (specEncodeExtended 1 smallTxWitness)) = .ok pE ∧
      parseTransaction (fileOf (specEncodeNonWitness smallTxWitness)) = .ok pL ∧
      pE.tx.NVersion = pL.tx.NVersion ∧
      List.Forall₂ (fun x y => x.Hash = y.Hash ∧ x.Index = y.Index ∧ x.Script = y.Script ∧
        x.Sequence = y.Sequence) pE.tx.Vin pL.tx.Vin ∧
      pE.tx.Vout = pL.tx.Vout ∧ pE.tx.Locktime = pL.tx.Locktime ∧
      pE.tx.Vin.map TxInput.ScriptWitness = smallTxWitness.Vin.map TxInput.ScriptWitness ∧
      (putTransactionHash (fun bs => bs.reverse) pE.tx).Hash
        = (putTransactionHash (fun bs => bs.reverse) pL.tx).Hash ∧
      pE.br.rest = [] ∧ pL.br.rest = [] :=
  segwit_parse_matches_legacy (fun bs => bs.reverse) smallTxWitness 1
    (fileOf (specEncodeExtended 1 smallTxWitness))
    (fileOf (specEncodeNonWitness smallTxWitness)) [] [] (by decide) (by decide) (by decide)
    (by decide) (by decide) (by decide)

/-- Claim C10, counterexample: `hugeCountStream` encodes the input count
`2 ^ 32`; `parseTransaction` returns a transaction with no input. -/
theorem parseTransaction_count_truncated :
    (fileOf (hugeCountStream.drop 4)).ReadVarint.1 = 2 ^ 32 ∧
    parseTransaction (fileOf hugeCountStream) = .ok
      { tx := { Hash := none, NVersion := 1, NVin := 0, Vin := [], NVout := 0, Vout := [],
                Locktime := 7 },
        err := none, br := { data := hugeCountStream, pos := 18 } } := by
  decide

/-- Claim C10, as amended: in every transaction `parseTransaction` returns,
the number of inputs is `NVin` and the number of outputs is `NVout`, the
output at position `k` carries index `k`, `NVin` is the encoded input count
reduced modulo `2 ^ 32` (read after the version in the legacy form, after
marker and non-zero flag in the extended form), and `NVout` is the count read
right after the last input, reduced modulo `2 ^ 32`. -/
theorem parseTransaction_counts (f : File) (p : Parsed) (h : parseTransaction f = .ok p) :
    p.tx.Vin.length = p.tx.NVin ∧ p.tx.Vout.length = p.tx.NVout ∧
    (∀ (k : Nat) (hk : k < p.tx.Vout.length), p.tx.Vout[k].Index = k) ∧
    (∀ (ver : List Byte) (b : Byte) (t : List Byte), ver.length = 4 → b ≠ 0 →
      f.rest = ver ++ b :: t → p.tx.NVin = (fileOf (b :: t)).ReadVarint.1 % 2 ^ 32) ∧
    (∀ (ver : List Byte) (fl : Byte) (t : List Byte), ver.length = 4 → fl ≠ 0 →
      f.rest = ver ++ 0 :: fl :: t → p.tx.NVin = (fileOf t).ReadVarint.1 % 2 ^ 32) ∧
    (∃ vin br1,
      parseInputs p.tx.NVin (parseHeader f.ReadInt32.2.ReadByte.1 f.ReadInt32.2).2.2 []
        = .ok (vin, br1) ∧ p.tx.NVout = br1.ReadVarint.1 % 2 ^ 32) := by
  obtain ⟨_, _, _, hnvin, hlin, _, hlout, _, hidx, _⟩ := parseTransaction_ok_shape f p h
  refine ⟨hlin, hlout, ?_, ?_, ?_, ?_⟩
  · intro k hk
    have := indexedFrom_getElem p.tx.Vout 0 hidx k hk
    omega
  · intro ver b t hver hb hr
    have h1 := File.Read_append f ver _ hr
    rw [hver] at h1
    have h1r : f.ReadInt32.2.rest = b :: t := h1.2
    have hpk := reads_ReadByte b f.ReadInt32.2 t h1r
    have hs := ReadVarint_sim (f := f.ReadInt32.2) (g := fileOf (b :: t))
      (ZeroExt.of_rest_eq (by rw [h1r]; rfl))
    rw [hnvin, hpk.1]
    simp only [parseHeader, if_neg hb]
    rw [hs.1]
  · intro ver fl t hver hfl hr
    have h1 := File.Read_append f ver _ hr
    rw [hver] at h1
    have h1r : f.ReadInt32.2.rest = 0 :: fl :: t := h1.2
    have hm := reads_ReadByte 0 f.ReadInt32.2 (fl :: t) h1r
    have hf := reads_ReadByte fl f.ReadInt32.2.ReadByte.2 t hm.2
    have hs := ReadVarint_sim (f := f.ReadInt32.2.ReadByte.2.ReadByte.2) (g := fileOf t)
      (ZeroExt.of_rest_eq (by rw [hf.2]; rfl))
    rw [hnvin, hm.1]
    simp only [parseHeader, if_true, hf.1, ne_eq, hfl, not_false_eq_true]
    rw [hs.1]
  · have hq := h
    rw [parseTransaction_eq] at hq
    rw [hnvin]
    cases hpi : parseInputs (parseHeader f.ReadInt32.2.ReadByte.1 f.ReadInt32.2).2.1
        (parseHeader f.ReadInt32.2.ReadByte.1 f.ReadInt32.2).2.2 [] with
    | fatal i k => rw [hpi] at hq; exact Outcome.noConfusion hq
    | panic => rw [hpi] at hq; exact Outcome.noConfusion hq
    | ok r =>
      obtain ⟨vin, br1⟩ := r
      rw [hpi] at hq
      simp only [] at hq
      obtain ⟨_, _, _, _, _, _, hnvout, _⟩ := parseTail_ok _ _ _ _ _ _ hq
      exact ⟨vin, br1, rfl, hnvout⟩

/-- The amended claim C10 at the encoding of `smallTx`. -/
theorem parseTransaction_counts_witness :
    parseTransaction (fileOf (hashPreimage smallTx)) = .ok smallParsed ∧
      smallParsed.tx.Vin.length = smallParsed.tx.NVin ∧
      smallParsed.tx.Vout.length = smallParsed.tx.NVout :=
  ⟨smallParsed_ok,
   (parseTransaction_counts (fileOf (hashPreimage smallTx)) smallParsed smallParsed_ok).1,
   (parseTransaction_counts (fileOf (hashPreimage smallTx)) smallParsed smallParsed_ok).2.1⟩

/-! ## Reading at the cursor -/

theorem File.Read_eq (f : File) (a t : List Byte) (h : f.rest = a ++ t) :
    f.Read a.length = (a, { f with pos := f.pos + a.length }) := by
  simp [File.Read, h]

theorem File.ReadByte_eq (f : File) (b : Byte) (t : List Byte) (h : f.rest = b :: t) :
    f.ReadByte = (b, { f with pos := f.pos + 1 }) := by
  have := File.Read_eq f [b] t h
  simp only [List.length_singleton] at this
  simp [File.ReadByte, this]

theorem File.rest_advance (f : File) (a t : List Byte) (h : f.rest = a ++ t) :
    ({ f with pos := f.pos + a.length } : File).rest = t := by
  have := (File.Read_append f a t h).2
  rw [File.Read_eq f a t h] at this
  exact this

theorem File.ReadVarint_of_byte (f g : File) (b : Nat) (h : f.ReadByte = (b, g)) :
    f.ReadVarint = if b = 0xFF then g.ReadUint64 else if b = 0xFE then g.ReadUint32
      else if b = 0xFD then g.ReadUint16 else (b, g) := by
  unfold File.ReadVarint
  rw [h]

theorem File.leRead_eq (f : File) (a t : List Byte) (h : f.rest = a ++ t) :
    (leUint (f.Read a.length).1, (f.Read a.length).2)
      = (leUint a, { f with pos := f.pos + a.length }) := by
  rw [File.Read_eq f a t h]

/-! ## The swap loop of `ReverseHex` -/

theorem reverseLoop_spec (b : List Byte) : ∀ (k : Nat) (l : List Byte), k ≤ b.length / 2 →
    l.length = b.length →
    (∀ j, j < b.length →
      l[j]? = if j < k ∨ b.length - 1 - k < j then b[j]? else b[b.length - 1 - j]?) →
    ∃ r, reverseLoop k l = some r ∧ r.length = b.length ∧
      ∀ j, j < b.length → r[j]? = b[b.length - 1 - j]? := by
  intro k
  induction k with
  | zero =>
    intro l _ hlen hinv
    refine ⟨l, rfl, hlen, ?_⟩
    intro j hj
    rw [hinv j hj, if_neg (by omega)]
  | succ k ih =>
    intro l hk hlen hinv
    have hkn : k < l.length := by omega
    have hon : l.length - 1 - k < l.length := by omega
    obtain ⟨x, hx⟩ : ∃ x, l[k]? = some x := ⟨l[k], List.getElem?_eq_getElem hkn⟩
    obtain ⟨y, hy⟩ : ∃ y, l[l.length - 1 - k]? = some y :=
      ⟨l[l.length - 1 - k], List.getElem?_eq_getElem hon⟩
    rw [reverseLoop, hx, hy]
    simp only []
    apply ih _ (by omega) (by simp [hlen])
    intro j hj
    rw [List.getElem?_set, List.getElem?_set]
    simp only [List.length_set]
    by_cases h1 : l.length - 1 - k = j
    · rw [if_pos h1, if_pos hon, if_neg (by omega)]
      have := hinv k (by omega)
      rw [if_pos (by omega)] at this
      rw [← hx, this]
      congr 1
      omega
    · rw [if_neg h1]
      by_cases h2 : k = j
      · rw [if_pos h2, if_pos hkn, if_neg (by omega)]
        have := hinv (l.length - 1 - k) (by omega)
        rw [if_pos (by omega)] at this
        rw [← hy, this]
        congr 1
        omega
      · rw [if_neg h2, hinv j hj]
        by_cases h3 : j < k ∨ b.length - 1 - k < j
        · rw [if_pos h3, if_pos (by omega)]
        · rw [if_neg h3, if_neg (by omega)]

/-! ## The maps and steps of the supervisor -/

section maps
variable {β : Type}

theorem hasKey_iff (m : List (String × β)) (k : String) :
    hasKey m k = true ↔ k ∈ mapKeys m := by
  simp only [hasKey, mapKeys, List.any_eq_true, beq_iff_eq, List.mem_map]

theorem mem_mapDelete (m : List (String × β)) (k : String) (e : String × β) :
    e ∈ mapDelete m k ↔ e ∈ m ∧ e.1 ≠ k := by
  simp [mapDelete]

theorem mem_keys_mapDelete (m : List (String × β)) (k x : String) :
    x ∈ mapKeys (mapDelete m k) ↔ x ∈ mapKeys m ∧ x ≠ k := by
  simp only [mapKeys, List.mem_map, mem_mapDelete]
  constructor
  · rintro ⟨e, ⟨he, hne⟩, rfl⟩; exact ⟨⟨e, he, rfl⟩, hne⟩
  · rintro ⟨⟨e, he, rfl⟩, hne⟩; exact ⟨e, ⟨he, hne⟩, rfl⟩

theorem mem_mapSet (m : List (String × β)) (k : String) (v : β) (e : String × β) :
    e ∈ mapSet m k v ↔ (e ∈ m ∧ e.1 ≠ k) ∨ e = (k, v) := by
  simp [mapSet, mem_mapDelete]

theorem mem_keys_mapSet (m : List (String × β)) (k : String) (v : β) (x : String) :
    x ∈ mapKeys (mapSet m k v) ↔ x ∈ mapKeys m ∨ x = k := by
  have h := mem_keys_mapDelete m k x
  simp only [mapKeys] at h
  simp only [mapKeys, mapSet, List.map_append, List.mem_append, h, List.map_cons, List.map_nil,
    List.mem_singleton]
  constructor
  · rintro (⟨h1, _⟩ | h2)
    · exact Or.inl h1
    · exact Or.inr h2
  · rintro (h1 | h2)
    · by_cases hx : x = k
      · exact Or.inr hx
      · exact Or.inl ⟨h1, hx⟩
    · exact Or.inr h2

theorem length_mapDelete_le (m : List (String × β)) (k : String) :
    (mapDelete m k).length ≤ m.length := List.length_filter_le _ _

theorem length_mapSet_le (m : List (String × β)) (k : String) (v : β) :
    (mapSet m k v).length ≤ m.length + 1 := by
  have := length_mapDelete_le m k
  simp only [mapSet, List.length_append, List.length_singleton]
  omega

theorem mapDelete_of_not_mem (m : List (String × β)) (k : String) (h : k ∉ mapKeys m) :
    mapDelete m k = m := by
  apply List.filter_eq_self.mpr
  intro e he
  simp only [bne_iff_ne, ne_eq]
  intro hk
  exact h (List.mem_map.mpr ⟨e, he, hk⟩)

theorem length_mapDelete (m : List (String × β)) (k : String) (hk : k ∈ mapKeys m)
    (hnd : (mapKeys m).Nodup) : (mapDelete m k).length + 1 = m.length := by
  induction m with
  | nil => simp [mapKeys] at hk
  | cons e es ih =>
    simp only [mapKeys, List.map_cons, List.nodup_cons] at hnd hk
    by_cases he : e.1 = k
    · have hnot : k ∉ mapKeys es := by rw [← he]; exact hnd.1
      have := mapDelete_of_not_mem es k hnot
      simp only [mapDelete] at this
      simp [mapDelete, he, this]
    · have hk' : k ∈ mapKeys es := by
        rcases List.mem_cons.mp hk with h | h
        · exact absurd h.symm he
        · exact h
      have := ih hk' hnd.2
      simp only [mapDelete] at this
      simp [mapDelete, he, this]

theorem nodup_keys_mapDelete (m : List (String × β)) (k : String) (hnd : (mapKeys m).Nodup) :
    (mapKeys (mapDelete m k)).Nodup := by
  simp only [mapKeys, mapDelete] at *
  exact (List.filter_sublist _).map Prod.fst |>.nodup hnd

theorem mapLookup_mem (m : List (String × β)) (k : String) (v : β)
    (h : mapLookup m k = some v) : (k, v) ∈ m := by
  simp only [mapLookup, Option.map_eq_some'] at h
  obtain ⟨e, he, rfl⟩ := h
  have h1 := List.mem_of_find?_eq_some he
  have h2 := List.find?_some he
  simp only [beq_iff_eq] at h2
  rw [← h2]
  exact h1

end maps

namespace Network

theorem AddPeer_frame (n : Network) (p : Peer) (ok : Bool) :
    (n.AddPeer p ok).2.peers = n.peers ∧ (n.AddPeer p ok).2.banned = n.banned ∧
      (n.AddPeer p ok).2.handlers = n.handlers ∧ (n.AddPeer p ok).2.maxPeers = n.maxPeers := by
  unfold AddPeer
  split
  · exact ⟨rfl, rfl, rfl, rfl⟩
  · split
    · exact ⟨rfl, rfl, rfl, rfl⟩
    · split <;> exact ⟨rfl, rfl, rfl, rfl⟩

theorem AddPeer_inv (n : Network) (p : Peer) (ok : Bool) (h : n.Inv) :
    (n.AddPeer p ok).2.Inv := by
  unfold AddPeer
  split
  · exact h
  · split
    · exact h
    · split
      · exact h
      · rename_i _ hp hb
        rw [hasKey_iff] at hp hb
        obtain ⟨h1, h2, h3, h4, h5, h6⟩ := h
        refine ⟨?_, h2, ?_, ?_, h5, h6⟩
        · intro k hk hk'
          rcases (mem_keys_mapSet _ _ _ _).mp hk' with hk' | rfl
          · exact h1 k hk hk'
          · exact hp hk
        · intro k hk
          rcases (mem_keys_mapSet _ _ _ _).mp hk with hk | rfl
          · exact h3 k hk
          · exact hb
        · intro e he
          rcases (mem_mapSet _ _ _ _).mp he with ⟨he, _⟩ | rfl
          · exact h4 e he
          · rfl

theorem addPeers_frame (addrs : List (Peer × Bool)) : ∀ n : Network,
    (n.addPeers addrs).peers = n.peers ∧ (n.addPeers addrs).banned = n.banned ∧
      (n.addPeers addrs).handlers = n.handlers ∧ (n.addPeers addrs).maxPeers = n.maxPeers := by
  induction addrs with
  | nil => intro n; exact ⟨rfl, rfl, rfl, rfl⟩
  | cons a as ih =>
    intro n
    have h1 := AddPeer_frame n a.1 a.2
    have h2 := ih (n.AddPeer a.1 a.2).2
    simp only [addPeers, List.foldl_cons] at h2 ⊢
    rw [h2.1, h2.2.1, h2.2.2.1, h2.2.2.2]
    exact h1

theorem addPeers_inv (addrs : List (Peer × Bool)) : ∀ n : Network, n.Inv →
    (n.addPeers addrs).Inv := by
  induction addrs with
  | nil => intro n h; exact h
  | cons a as ih =>
    intro n h
    exact ih _ (AddPeer_inv n a.1 a.2 h)

theorem watchBody_inv (n : Network) (k : String) (p : Peer) (ok : Bool) (h : n.Inv)
    (hm : (k, p) ∈ n.newAddr) : (n.watchBody k p ok).Inv := by
  unfold watchBody
  split
  · rename_i hlt
    split
    · obtain ⟨h1, h2, h3, h4, h5, h6⟩ := h
      have hk : k ∈ mapKeys n.newAddr := List.mem_map.mpr ⟨(k, p), hm, rfl⟩
      have hip : p.ip = k := h4 (k, p) hm
      refine ⟨?_, ?_, ?_, ?_, ?_, ?_⟩
      · intro x hx hx'
        rw [mem_keys_mapDelete] at hx'
        rcases (mem_keys_mapSet _ _ _ _).mp hx with hx | rfl
        · exact h1 x hx hx'.1
        · exact hx'.2 rfl
      · intro x hx
        rcases (mem_keys_mapSet _ _ _ _).mp hx with hx | rfl
        · exact h2 x hx
        · exact h3 x hk
      · intro x hx
        rw [mem_keys_mapDelete] at hx
        exact h3 x hx.1
      · intro e he
        rw [mem_mapDelete] at he
        exact h4 e he.1
      · intro g hg
        rcases List.mem_append.mp hg with hg | hg
        · rcases h5 g hg with hg | hg
          · exact Or.inl ((mem_keys_mapSet _ _ _ _).mpr (Or.inl hg))
          · exact Or.inr hg
        · simp only [List.mem_singleton] at hg
          subst hg
          exact Or.inl ((mem_keys_mapSet _ _ _ _).mpr (Or.inr hip))
      · have := length_mapSet_le n.peers k p
        show (mapSet n.peers k p).length ≤ n.maxPeers
        omega
    · exact h
  · exact h

theorem handlers_set_inv (n : Network) (i : Nat) (h : Handler) (hi : n.handlers[i]? = some h)
    (hinv : n.Inv) : ({ n with handlers := n.handlers.set i { h with running := false } }).Inv := by
  obtain ⟨h1, h2, h3, h4, h5, h6⟩ := hinv
  refine ⟨h1, h2, h3, h4, ?_, h6⟩
  intro g hg
  rcases List.mem_or_eq_of_mem_set hg with hg | rfl
  · exact h5 g hg
  · exact h5 h (List.getElem?_mem hi)

theorem actionMessage_inv (n : Network) (i : Nat) (addrs : List (Peer × Bool)) (cb : Bool)
    (h : n.Inv) : (n.actionMessage i addrs cb).Inv := by
  unfold actionMessage
  cases hi : n.handlers[i]? with
  | none => exact h
  | some g =>
    simp only []
    split
    · split
      · exact addPeers_inv addrs n h
      · apply handlers_set_inv _ i g _ (addPeers_inv addrs n h)
        rw [(addPeers_frame addrs n).2.2.1]
        exact hi
    · exact h

theorem actionReadError_inv (n : Network) (i : Nat) (h : n.Inv) :
    (n.actionReadError i).Inv := by
  unfold actionReadError
  cases hi : n.handlers[i]? with
  | none => exact h
  | some g =>
    simp only []
    split
    · exact handlers_set_inv n i g hi h
    · exact h

theorem handleTimeout_inv (n : Network) (i : Nat) (h : n.Inv) : (n.handleTimeout i).Inv := by
  unfold handleTimeout
  cases hi : n.handlers[i]? with
  | none => exact h
  | some g =>
    simp only []
    obtain ⟨h1, h2, h3, h4, h5, h6⟩ := h
    have hg := h5 g (List.getElem?_mem hi)
    refine ⟨?_, ?_, ?_, h4, ?_, ?_⟩
    · intro x hx
      rw [mem_keys_mapDelete] at hx
      exact h1 x hx.1
    · intro x hx hx'
      rw [mem_keys_mapDelete] at hx
      rcases (mem_keys_mapSet _ _ _ _).mp hx' with hx' | rfl
      · exact h2 x hx.1 hx'
      · exact hx.2 rfl
    · intro x hx hx'
      rcases (mem_keys_mapSet _ _ _ _).mp hx' with hx' | rfl
      · exact h3 x hx hx'
      · rcases hg with hg | hg
        · exact h1 _ hg hx
        · exact h3 _ hx hg
    · intro g' hg'
      by_cases hsame : g'.p.ip = g.p.ip
      · exact Or.inr ((mem_keys_mapSet _ _ _ _).mpr (Or.inr hsame))
      · rcases h5 g' hg' with hg' | hg'
        · exact Or.inl ((mem_keys_mapDelete _ _ _).mpr ⟨hg', hsame⟩)
        · exact Or.inr ((mem_keys_mapSet _ _ _ _).mpr (Or.inl hg'))
    · have := length_mapDelete_le n.peers g.p.ip
      show (mapDelete n.peers g.p.ip).length ≤ n.maxPeers
      omega

end Network

theorem step_inv (n : Network) (e : Event) (h : n.Inv) : (step n e).Inv := by
  cases e with
  | addPeer p ok => exact Network.AddPeer_inv n p ok h
  | watch k ok =>
    simp only [step]
    cases hl : mapLookup n.newAddr k with
    | none => exact h
    | some p => exact Network.watchBody_inv n k p ok h (mapLookup_mem _ _ _ hl)
  | message i addrs cb => exact Network.actionMessage_inv n i addrs cb h
  | readError i => exact Network.actionReadError_inv n i h
  | timeout i => exact Network.handleTimeout_inv n i h

theorem runFrom_inv (evs : List Event) : ∀ n : Network, n.Inv → (runFrom n evs).Inv := by
  induction evs with
  | nil => intro n h; exact h
  | cons e es ih => intro n h; exact ih _ (step_inv n e h)

theorem New_inv (m : Nat) : ({ Network.New with maxPeers := m } : Network).Inv := by
  refine ⟨?_, ?_, ?_, ?_, ?_, ?_⟩ <;> simp [Network.New, mapKeys]

theorem step_maxPeers (n : Network) (e : Event) : (step n e).maxPeers = n.maxPeers := by
  cases e with
  | addPeer p ok => exact (Network.AddPeer_frame n p ok).2.2.2
  | watch k ok =>
    simp only [step]
    cases mapLookup n.newAddr k with
    | none => rfl
    | some p =>
      simp only [Network.watchBody]
      split
      · split <;> rfl
      · rfl
  | message i addrs cb =>
    simp only [step, Network.actionMessage]
    cases n.handlers[i]? with
    | none => rfl
    | some g =>
      simp only []
      split
      · split
        · exact (Network.addPeers_frame addrs n).2.2.2
        · exact (Network.addPeers_frame addrs n).2.2.2
      · rfl
  | readError i =>
    simp only [step, Network.actionReadError]
    cases n.handlers[i]? with
    | none => rfl
    | some g =>
      simp only []
      split <;> rfl
  | timeout i =>
    simp only [step, Network.handleTimeout]
    cases n.handlers[i]? with
    | none => rfl
    | some g => rfl

theorem runFrom_maxPeers (evs : List Event) : ∀ n : Network,
    (runFrom n evs).maxPeers = n.maxPeers := by
  induction evs with
  | nil => intro n; rfl
  | cons e es ih =>
    intro n
    exact (ih (step n e)).trans (step_maxPeers n e)

theorem step_banned (n : Network) (e : Event) (a : String) (h : a ∈ mapKeys n.banned) :
    a ∈ mapKeys (step n e).banned := by
  cases e with
  | addPeer p ok =>
    simp only [step]
    rw [(Network.AddPeer_frame n p ok).2.1]; exact h
  | watch k ok =>
    simp only [step]
    cases mapLookup n.newAddr k with
    | none => exact h
    | some p =>
      simp only [Network.watchBody]
      split
      · split <;> exact h
      · exact h
  | message i addrs cb =>
    simp only [step, Network.actionMessage]
    cases n.handlers[i]? with
    | none => exact h
    | some g =>
      simp only []
      split
      · split
        · rw [(Network.addPeers_frame addrs n).2.1]; exact h
        · show a ∈ mapKeys (n.addPeers addrs).banned
          rw [(Network.addPeers_frame addrs n).2.1]; exact h
      · exact h
  | readError i =>
    simp only [step, Network.actionReadError]
    cases n.handlers[i]? with
    | none => exact h
    | some g =>
      simp only []
      split <;> exact h
  | timeout i =>
    simp only [step, Network.handleTimeout]
    cases n.handlers[i]? with
    | none => exact h
    | some g => exact (mem_keys_mapSet _ _ _ _).mpr (Or.inl h)

theorem runFrom_banned (evs : List Event) : ∀ (n : Network) (a : String),
    a ∈ mapKeys n.banned → a ∈ mapKeys (runFrom n evs).banned := by
  induction evs with
  | nil => intro n a h; exact h
  | cons e es ih => intro n a h; exact ih _ a (step_banned n e a h)

theorem runFrom_append (n : Network) (evs evs2 : List Event) :
    runFrom (runFrom n evs) evs2 = runFrom n (evs ++ evs2) := by
  simp [runFrom, List.foldl_append]

theorem start_inv (m : Nat) : (Network.start m).Inv := New_inv m

theorem Network.AddPeer_banned (n : Network) (p : Peer) (ok : Bool)
    (hb : p.ip ∈ mapKeys n.banned) :
    (n.AddPeer p ok).1 ≠ none ∧ (n.AddPeer p ok).2 = n := by
  have hk : hasKey n.banned p.ip = true := (hasKey_iff _ _).mpr hb
  unfold Network.AddPeer
  cases ok with
  | false => simp
  | true =>
    cases hp : hasKey n.peers p.ip with
    | true => simp
    | false => simp [hk]

theorem Network.AddPeer_eq (n : Network) (p : Peer) (ok : Bool) :
    n.AddPeer p ok =
      match n.AddPeerChecks p ok with
      | some e => (some e, n)
      | none => (none, n.AddPeerWrite p) := by
  unfold Network.AddPeer Network.AddPeerChecks Network.AddPeerWrite
  cases ok with
  | false => simp
  | true =>
    cases hp : hasKey n.peers p.ip with
    | true => simp
    | false =>
      cases hb : hasKey n.banned p.ip with
      | true => simp
      | false => simp

theorem Network.AddPeerChecks_banned (n : Network) (p : Peer) (ok : Bool)
    (hb : p.ip ∈ mapKeys n.banned) : n.AddPeerChecks p ok ≠ none := by
  have hk : hasKey n.banned p.ip = true := (hasKey_iff _ _).mpr hb
  unfold Network.AddPeerChecks
  cases ok with
  | false => simp
  | true =>
    cases hp : hasKey n.peers p.ip with
    | true => simp
    | false => simp [hk]

theorem stepFine_banned (s : Interleaved) (e : FineEvent) (a : String)
    (h : a ∈ mapKeys s.net.banned) : a ∈ mapKeys (stepFine s e).net.banned := by
  cases e with
  | whole e => exact step_banned s.net e a h
  | addPeerChecks p ok =>
    simp only [stepFine]
    cases s.net.AddPeerChecks p ok with
    | none => exact h
    | some _ => exact h
  | addPeerWrite j =>
    simp only [stepFine]
    cases s.pending[j]? with
    | none => exact h
    | some p => exact h

theorem runFine_banned (evs : List FineEvent) : ∀ (s : Interleaved) (a : String),
    a ∈ mapKeys s.net.banned → a ∈ mapKeys (runFine s evs).net.banned := by
  induction evs with
  | nil => intro s a h; exact h
  | cons e es ih => intro s a h; exact ih _ a (stepFine_banned s e a h)

theorem runFine_append (s : Interleaved) (evs evs2 : List FineEvent) :
    runFine (runFine s evs) evs2 = runFine s (evs ++ evs2) := by
  simp [runFine, List.foldl_append]

theorem stepFine_checks_failed (s : Interleaved) (p : Peer) (ok : Bool)
    (h : s.net.AddPeerChecks p ok ≠ none) : stepFine s (.addPeerChecks p ok) = s := by
  simp only [stepFine]
  cases hc : s.net.AddPeerChecks p ok with
  | none => exact absurd hc h
  | some _ => rfl

theorem Network.AddPeerChecks_none (n : Network) (p : Peer) (ok : Bool)
    (h : n.AddPeerChecks p ok = none) :
    ok = true ∧ p.ip ∉ mapKeys n.peers ∧ p.ip ∉ mapKeys n.banned := by
  unfold Network.AddPeerChecks at h
  cases ok with
  | false => simp at h
  | true =>
    cases hp : hasKey n.peers p.ip with
    | true => simp [hp] at h
    | false =>
      cases hb : hasKey n.banned p.ip with
      | true => simp [hp, hb] at h
      | false =>
        refine ⟨rfl, ?_, ?_⟩
        · intro hc; rw [← hasKey_iff, hp] at hc; exact Bool.noConfusion hc
        · intro hc; rw [← hasKey_iff, hb] at hc; exact Bool.noConfusion hc

theorem Network.AddPeer_shut (n : Network) (p : Peer) (ok : Bool) (a : String)
    (hb : a ∈ mapKeys n.banned) (hn : a ∉ mapKeys n.newAddr) :
    a ∉ mapKeys (n.AddPeer p ok).2.newAddr := by
  rw [Network.AddPeer_eq]
  cases hc : n.AddPeerChecks p ok with
  | some e => exact hn
  | none =>
    obtain ⟨_, _, hnb⟩ := Network.AddPeerChecks_none n p ok hc
    intro hx
    rcases (mem_keys_mapSet _ _ _ _).mp hx with hx | rfl
    · exact hn hx
    · exact hnb hb

theorem Network.addPeers_shut (addrs : List (Peer × Bool)) : ∀ (n : Network) (a : String),
    a ∈ mapKeys n.banned → a ∉ mapKeys n.newAddr → a ∉ mapKeys (n.addPeers addrs).newAddr := by
  induction addrs with
  | nil => intro n a _ hn; exact hn
  | cons x xs ih =>
    intro n a hb hn
    have h1 := Network.AddPeer_shut n x.1 x.2 a hb hn
    have h2 : a ∈ mapKeys (n.AddPeer x.1 x.2).2.banned := by
      rw [(Network.AddPeer_frame n x.1 x.2).2.1]; exact hb
    exact ih _ a h2 h1

theorem step_shut (n : Network) (e : Event) (a : String) (hb : a ∈ mapKeys n.banned)
    (hn : a ∉ mapKeys n.newAddr) (hp : a ∉ mapKeys n.peers) :
    a ∉ mapKeys (step n e).newAddr ∧ a ∉ mapKeys (step n e).peers := by
  cases e with
  | addPeer p ok =>
    simp only [step]
    rw [(Network.AddPeer_frame n p ok).1]
    exact ⟨Network.AddPeer_shut n p ok a hb hn, hp⟩
  | watch k ok =>
    simp only [step]
    cases hl : mapLookup n.newAddr k with
    | none => exact ⟨hn, hp⟩
    | some p =>
      have hk : k ∈ mapKeys n.newAddr := List.mem_map_of_mem Prod.fst (mapLookup_mem _ _ _ hl)
      have hka : a ≠ k := fun hc => hn (hc ▸ hk)
      simp only [Network.watchBody]
      split
      · split
        · refine ⟨?_, ?_⟩
          · intro hx
            exact hn ((mem_keys_mapDelete _ _ _).mp hx).1
          · intro hx
            rcases (mem_keys_mapSet _ _ _ _).mp hx with hx | hx
            · exact hp hx
            · exact hka hx
        · exact ⟨hn, hp⟩
      · exact ⟨hn, hp⟩
  | message i addrs cb =>
    simp only [step, Network.actionMessage]
    cases n.handlers[i]? with
    | none => exact ⟨hn, hp⟩
    | some g =>
      simp only []
      split
      · split
        · rw [(Network.addPeers_frame addrs n).1]
          exact ⟨Network.addPeers_shut addrs n a hb hn, hp⟩
        · show a ∉ mapKeys (n.addPeers addrs).newAddr ∧ a ∉ mapKeys (n.addPeers addrs).peers
          rw [(Network.addPeers_frame addrs n).1]
          exact ⟨Network.addPeers_shut addrs n a hb hn, hp⟩
      · exact ⟨hn, hp⟩
  | readError i =>
    simp only [step, Network.actionReadError]
    cases n.handlers[i]? with
    | none => exact ⟨hn, hp⟩
    | some g =>
      simp only []
      split <;> exact ⟨hn, hp⟩
  | timeout i =>
    simp only [step, Network.handleTimeout]
    cases n.handlers[i]? with
    | none => exact ⟨hn, hp⟩
    | some g =>
      refine ⟨hn, ?_⟩
      intro hx
      exact hp ((mem_keys_mapDelete _ _ _).mp hx).1

theorem stepFine_shut (s : Interleaved) (e : FineEvent) (a : String)
    (hb : a ∈ mapKeys s.net.banned) (hn : a ∉ mapKeys s.net.newAddr)
    (hp : a ∉ mapKeys s.net.peers) (hq : ∀ p ∈ s.pending, p.ip ≠ a) :
    a ∉ mapKeys (stepFine s e).net.newAddr ∧ a ∉ mapKeys (stepFine s e).net.peers ∧
      ∀ p ∈ (stepFine s e).pending, p.ip ≠ a := by
  cases e with
  | whole e =>
    have h := step_shut s.net e a hb hn hp
    exact ⟨h.1, h.2, hq⟩
  | addPeerChecks p ok =>
    simp only [stepFine]
    cases hc : s.net.AddPeerChecks p ok with
    | some _ => exact ⟨hn, hp, hq⟩
    | none =>
      obtain ⟨_, _, hnb⟩ := Network.AddPeerChecks_none s.net p ok hc
      refine ⟨hn, hp, ?_⟩
      intro q hq'
      rcases List.mem_append.mp hq' with hq' | hq'
      · exact hq q hq'
      · rw [List.mem_singleton] at hq'
        subst hq'
        intro hc'
        exact hnb (hc' ▸ hb)
  | addPeerWrite j =>
    simp only [stepFine]
    cases hj : s.pending[j]? with
    | none => exact ⟨hn, hp, hq⟩
    | some p =>
      have hpa : p.ip ≠ a := hq p (List.getElem?_mem hj)
      refine ⟨?_, hp, ?_⟩
      · intro hx
        rcases (mem_keys_mapSet _ _ _ _).mp hx with hx | hx
        · exact hn hx
        · exact hpa hx.symm
      · intro q hq'
        exact hq q (List.mem_of_mem_eraseIdx hq')

theorem runFine_shut (evs : List FineEvent) : ∀ (s : Interleaved) (a : String),
    a ∈ mapKeys s.net.banned → a ∉ mapKeys s.net.newAddr → a ∉ mapKeys s.net.peers →
    (∀ p ∈ s.pending, p.ip ≠ a) →
    a ∉ mapKeys (runFine s evs).net.newAddr ∧ a ∉ mapKeys (runFine s evs).net.peers ∧
      ∀ p ∈ (runFine s evs).pending, p.ip ≠ a := by
  induction evs with
  | nil => intro s a _ hn hp hq; exact ⟨hn, hp, hq⟩
  | cons e es ih =>
    intro s a hb hn hp hq
    obtain ⟨h1, h2, h3⟩ := stepFine_shut s e a hb hn hp hq
    exact ih _ a (stepFine_banned s e a hb) h1 h2 h3

theorem nodup_keys_mapSet {β : Type} (m : List (String × β)) (k : String) (v : β)
    (hnd : (mapKeys m).Nodup) : (mapKeys (mapSet m k v)).Nodup := by
  have h1 := nodup_keys_mapDelete m k hnd
  have h2 : k ∉ mapKeys (mapDelete m k) := fun hc => ((mem_keys_mapDelete m k k).mp hc).2 rfl
  simp only [mapKeys, mapSet, List.map_append, List.map_cons, List.map_nil] at *
  exact List.Nodup.append h1 (List.nodup_singleton k) (by
    intro x hx hx'
    rw [List.mem_singleton] at hx'
    subst hx'
    exact h2 hx)

theorem Network.AddPeer_nodup (n : Network) (p : Peer) (ok : Bool)
    (h : (mapKeys n.newAddr).Nodup) : (mapKeys (n.AddPeer p ok).2.newAddr).Nodup := by
  unfold Network.AddPeer
  split
  · exact h
  · split
    · exact h
    · split
      · exact h
      · exact nodup_keys_mapSet _ _ _ h

theorem Network.addPeers_nodup (addrs : List (Peer × Bool)) : ∀ n : Network,
    (mapKeys n.newAddr).Nodup → (mapKeys (n.addPeers addrs).newAddr).Nodup := by
  induction addrs with
  | nil => intro n h; exact h
  | cons a as ih => intro n h; exact ih _ (Network.AddPeer_nodup n a.1 a.2 h)

theorem step_nodup (n : Network) (e : Event) (h : (mapKeys n.newAddr).Nodup) :
    (mapKeys (step n e).newAddr).Nodup := by
  cases e with
  | addPeer p ok => exact Network.AddPeer_nodup n p ok h
  | watch k ok =>
    simp only [step]
    cases mapLookup n.newAddr k with
    | none => exact h
    | some p =>
      simp only [Network.watchBody]
      split
      · split
        · exact nodup_keys_mapDelete _ _ h
        · exact h
      · exact h
  | message i addrs cb =>
    simp only [step, Network.actionMessage]
    cases n.handlers[i]? with
    | none => exact h
    | some g =>
      simp only []
      split
      · split
        · exact Network.addPeers_nodup addrs n h
        · exact Network.addPeers_nodup addrs n h
      · exact h
  | readError i =>
    simp only [step, Network.actionReadError]
    cases n.handlers[i]? with
    | none => exact h
    | some g =>
      simp only []
      split <;> exact h
  | timeout i =>
    simp only [step, Network.handleTimeout]
    cases n.handlers[i]? with
    | none => exact h
    | some g => exact h

theorem runFrom_nodup (evs : List Event) : ∀ n : Network, (mapKeys n.newAddr).Nodup →
    (mapKeys (runFrom n evs).newAddr).Nodup := by
  induction evs with
  | nil => intro n h; exact h
  | cons e es ih => intro n h; exact ih _ (step_nodup n e h)

theorem Network.watchBody_promote (n : Network) (k : String) (p : Peer)
    (hlt : n.peers.length < n.maxPeers) :
    (n.watchBody k p true).peers = mapSet n.peers k p ∧
      (n.watchBody k p true).newAddr = mapDelete n.newAddr k ∧
      (n.watchBody k p true).maxPeers = n.maxPeers := by
  simp [Network.watchBody, hlt]

theorem Network.watchBody_full (n : Network) (k : String) (p : Peer) (ok : Bool)
    (hlt : ¬ n.peers.length < n.maxPeers) : n.watchBody k p ok = n := by
  simp [Network.watchBody, hlt]

theorem Network.watchTick_count (order : List (String × Peer)) : ∀ n : Network,
    (mapKeys order).Nodup → (∀ e ∈ order, e ∈ n.newAddr) → (mapKeys n.newAddr).Nodup →
    (∀ k ∈ mapKeys n.newAddr, k ∉ mapKeys n.peers) →
    (n.watchTick order fun _ => true).peers.length
        = n.peers.length + min order.length (n.maxPeers - n.peers.length) ∧
      (n.watchTick order fun _ => true).newAddr.length
          + min order.length (n.maxPeers - n.peers.length) = n.newAddr.length := by
  induction order with
  | nil =>
    intro n _ _ _ _
    simp [Network.watchTick]
  | cons e es ih =>
    intro n hnd hmem hndn hdis
    simp only [mapKeys, List.map_cons, List.nodup_cons] at hnd
    have he : e ∈ n.newAddr := hmem e (List.mem_cons_self _ _)
    have hek : e.1 ∈ mapKeys n.newAddr := List.mem_map.mpr ⟨e, he, rfl⟩
    have hstep : n.watchTick (e :: es) (fun _ => true)
        = (n.watchBody e.1 e.2 true).watchTick es (fun _ => true) := rfl
    rw [hstep]
    by_cases hlt : n.peers.length < n.maxPeers
    · obtain ⟨hb1, hb2, hb3⟩ := Network.watchBody_promote n e.1 e.2 hlt
      have hp : (mapSet n.peers e.1 e.2).length = n.peers.length + 1 := by
        simp [mapSet, mapDelete_of_not_mem n.peers e.1 (hdis _ hek)]
      have hd := length_mapDelete n.newAddr e.1 hek hndn
      have := ih (n.watchBody e.1 e.2 true) hnd.2
        (by
          intro x hx
          rw [hb2]
          refine (mem_mapDelete _ _ _).mpr ⟨hmem x (List.mem_cons_of_mem _ hx), ?_⟩
          intro hc
          exact hnd.1 (List.mem_map.mpr ⟨x, hx, hc⟩))
        (by rw [hb2]; exact nodup_keys_mapDelete _ _ hndn)
        (by
          intro k hk hk2
          rw [hb2, mem_keys_mapDelete] at hk
          rw [hb1] at hk2
          rcases (mem_keys_mapSet _ _ _ _).mp hk2 with hk2 | hk2
          · exact hdis k hk.1 hk2
          · exact hk.2 hk2)
      rw [hb1, hb2, hb3, hp] at this
      simp only [List.length_cons]
      omega
    · rw [Network.watchBody_full n e.1 e.2 true hlt]
      have := ih n hnd.2 (fun x hx => hmem x (List.mem_cons_of_mem _ hx)) hndn hdis
      simp only [List.length_cons]
      omega

theorem seed_facts :
    ((runFrom (Network.start 5) seedEvents).watchTick
        (runFrom (Network.start 5) seedEvents).newAddr fun _ => true).peers.length = 5 ∧
    ((runFrom (Network.start 5) seedEvents).watchTick
        (runFrom (Network.start 5) seedEvents).newAddr fun _ => true).newAddr.length = 15 ∧
    (runFrom (Network.start 5) seedEvents).newAddr.length = 20 ∧
    (runFrom (Network.start 5) seedEvents).peers.length = 0 := by
  decide

theorem Network.actionMessage_stopped (n : Network) (i : Nat) (g : Handler)
    (addrs : List (Peer × Bool)) (cb : Bool) (hi : n.handlers[i]? = some g)
    (hg : g.running = false) : n.actionMessage i addrs cb = n := by
  simp [Network.actionMessage, hi, hg]

theorem Network.actionReadError_stopped (n : Network) (i : Nat) (g : Handler)
    (hi : n.handlers[i]? = some g) (hg : g.running = false) : n.actionReadError i = n := by
  simp [Network.actionReadError, hi, hg]

theorem Network.handleTimeout_bans (n : Network) (i : Nat) (g : Handler)
    (hi : n.handlers[i]? = some g) :
    g.p.ip ∈ mapKeys (n.handleTimeout i).banned ∧
      g.p.ip ∉ mapKeys (n.handleTimeout i).peers := by
  simp only [Network.handleTimeout, hi]
  exact ⟨(mem_keys_mapSet _ _ _ _).mpr (Or.inr rfl),
    fun hc => ((mem_keys_mapDelete _ _ _).mp hc).2 rfl⟩

theorem Network.actionMessage_failed (n : Network) (i : Nat) (h : Handler)
    (addrs : List (Peer × Bool)) (hi : n.handlers[i]? = some h) (hrun : h.running = true) :
    (n.actionMessage i addrs false).peers = n.peers ∧
      (n.actionMessage i addrs false).banned = n.banned ∧
      (n.actionMessage i addrs false).handlers[i]? = some { h with running := false } := by
  have hf := Network.addPeers_frame addrs n
  have hlt : i < n.handlers.length := by
    rcases List.getElem?_eq_some.mp hi with ⟨hlt, _⟩
    exact hlt
  simp only [Network.actionMessage, hi, hrun, if_true, Bool.false_eq_true, if_false]
  refine ⟨hf.1, hf.2.1, ?_⟩
  show ((n.addPeers addrs).handlers.set i _)[i]? = _
  rw [hf.2.2.1, List.getElem?_set_self hlt]

/-! ## The claims on the decoder, the hash utilities and the supervisor -/

/-- Claim C11: on a source whose next byte is `b`, `ReadVarint` returns `b`
and moves the cursor by 1 when `b < 0xFD`; when `b` is `0xFD`, `0xFE` or
`0xFF` and the 2, 4 or 8 bytes it announces follow, it returns those bytes as
a little-endian number and moves the cursor by 3, 5 or 9. -/
theorem ReadVarint_layout (f : File) (b : Nat) (t : List Byte) (h : f.rest = b :: t) :
    (b < 0xFD → f.ReadVarint = (b, { f with pos := f.pos + 1 })) ∧
    (∀ (b0 b1 : Nat) (u : List Byte), b = 0xFD → t = b0 :: b1 :: u →
      f.ReadVarint = (b0 + 256 * b1, { f with pos := f.pos + 3 })) ∧
    (∀ (b0 b1 b2 b3 : Nat) (u : List Byte), b = 0xFE → t = b0 :: b1 :: b2 :: b3 :: u →
      f.ReadVarint
        = (b0 + 256 * b1 + 256 ^ 2 * b2 + 256 ^ 3 * b3, { f with pos := f.pos + 5 })) ∧
    (∀ (b0 b1 b2 b3 b4 b5 b6 b7 : Nat) (u : List Byte), b = 0xFF →
      t = b0 :: b1 :: b2 :: b3 :: b4 :: b5 :: b6 :: b7 :: u →
      f.ReadVarint
        = (b0 + 256 * b1 + 256 ^ 2 * b2 + 256 ^ 3 * b3 + 256 ^ 4 * b4 + 256 ^ 5 * b5
            + 256 ^ 6 * b6 + 256 ^ 7 * b7, { f with pos := f.pos + 9 })) := by
  have hv := File.ReadVarint_of_byte f _ b (File.ReadByte_eq f b t h)
  have hr := File.rest_advance f [b] t h
  simp only [List.length_singleton] at hr
  refine ⟨?_, ?_, ?_, ?_⟩
  · intro hlt
    rw [hv, if_neg (show ¬ b = 0xFF by omega), if_neg (show ¬ b = 0xFE by omega),
      if_neg (show ¬ b = 0xFD by omega)]
  · intro b0 b1 u hb ht
    rw [ht] at hr
    have h2 := File.leRead_eq { f with pos := f.pos + 1 } [b0, b1] u hr
    rw [hv, if_neg (show ¬ b = 0xFF by omega), if_neg (show ¬ b = 0xFE by omega), if_pos hb]
    refine Eq.trans h2 ?_
    simp only [leUint, List.length_cons, List.length_nil, Prod.mk.injEq, File.mk.injEq,
      true_and]
    constructor <;> first | omega | ring_nf
  · intro b0 b1 b2 b3 u hb ht
    rw [ht] at hr
    have h2 := File.leRead_eq { f with pos := f.pos + 1 } [b0, b1, b2, b3] u hr
    rw [hv, if_neg (show ¬ b = 0xFF by omega), if_pos hb]
    refine Eq.trans h2 ?_
    simp only [leUint, List.length_cons, List.length_nil, Prod.mk.injEq, File.mk.injEq,
      true_and]
    constructor <;> first | omega | ring_nf
  · intro b0 b1 b2 b3 b4 b5 b6 b7 u hb ht
    rw [ht] at hr
    have h2 := File.leRead_eq { f with pos := f.pos + 1 } [b0, b1, b2, b3, b4, b5, b6, b7] u hr
    rw [hv, if_pos hb]
    refine Eq.trans h2 ?_
    simp only [leUint, List.length_cons, List.length_nil, Prod.mk.injEq, File.mk.injEq,
      true_and]
    constructor <;> first | omega | ring_nf

/-- Claim C11 at the sources `2A 09` and `FD 34 12 09`. -/
theorem ReadVarint_layout_witness :
    (fileOf [0x2A, 9]).ReadVarint = (0x2A, { data := [0x2A, 9], pos := 1 }) ∧
    (fileOf [0xFD, 0x34, 0x12, 9]).ReadVarint
      = (0x34 + 256 * 0x12, { data := [0xFD, 0x34, 0x12, 9], pos := 3 }) :=
  ⟨(ReadVarint_layout (fileOf [0x2A, 9]) 0x2A [9] rfl).1 (by decide),
   (ReadVarint_layout (fileOf [0xFD, 0x34, 0x12, 9]) 0xFD [0x34, 0x12, 9] rfl).2.1
      0x34 0x12 [9] rfl rfl⟩

/-- Claim C12: `putTransactionHash` on a transaction whose txid is set returns
it unchanged, txid and every other field; hence after a first call a second
one changes nothing, also when the inputs and outputs were replaced in
between. -/
theorem putTransactionHash_memo (sha : List Byte → List Byte) (tx : Transaction)
    (h : List Byte) (hset : tx.Hash = some h) :
    putTransactionHash sha tx = tx ∧
    (∀ (t0 : Transaction) (vin : List TxInput) (vout : List TxOutput),
      putTransactionHash sha { putTransactionHash sha t0 with Vin := vin, Vout := vout }
        = { putTransactionHash sha t0 with Vin := vin, Vout := vout }) ∧
    (∀ t0 : Transaction,
      putTransactionHash sha (putTransactionHash sha t0) = putTransactionHash sha t0) := by
  have hs : ∀ t0 : Transaction, ∃ d, (putTransactionHash sha t0).Hash = some d := by
    intro t0
    unfold putTransactionHash
    cases h0 : t0.Hash with
    | none => exact ⟨_, rfl⟩
    | some d => exact ⟨d, h0⟩
  have hm : ∀ (t : Transaction) (d : List Byte), t.Hash = some d →
      putTransactionHash sha t = t := by
    intro t d hd
    unfold putTransactionHash
    rw [hd]
  refine ⟨hm tx h hset, ?_, ?_⟩
  · intro t0 vin vout
    obtain ⟨d, hd⟩ := hs t0
    exact hm _ d hd
  · intro t0
    obtain ⟨d, hd⟩ := hs t0
    exact hm _ d hd

/-- Claim C12 at `smallTx` with a txid already set. -/
theorem putTransactionHash_memo_witness :
    putTransactionHash (fun bs => bs.reverse) { smallTx with Hash := some [1, 2, 3] }
      = { smallTx with Hash := some [1, 2, 3] } :=
  (putTransactionHash_memo (fun bs => bs.reverse) { smallTx with Hash := some [1, 2, 3] }
    [1, 2, 3] rfl).1

/-- Claim C13: for every byte slice `b`, `ReverseHex` runs without an index
out of range, leaves `b` as it was, and returns a slice `newb` of the same
length whose byte at each index `i` is the byte of `b` at `len(b) - 1 - i`:
the reversal of `b`. -/
theorem ReverseHex_reverses (b : List Byte) :
    ∃ newb, ReverseHex b = some (b, newb) ∧ newb.length = b.length ∧
      (∀ i, i < b.length → newb[i]? = b[b.length - 1 - i]?) ∧ newb = b.reverse := by
  obtain ⟨r, hr, hlen, hget⟩ := reverseLoop_spec b (b.length / 2) b (Nat.le_refl _) rfl (by
    intro j hj
    by_cases h : j < b.length / 2 ∨ b.length - 1 - b.length / 2 < j
    · rw [if_pos h]
    · rw [if_neg h]
      congr 1
      omega)
  refine ⟨r, by simp [ReverseHex, hr], hlen, hget, ?_⟩
  apply List.ext_getElem?
  intro i
  by_cases hi : i < b.length
  · rw [hget i hi, List.getElem?_reverse hi]
  · rw [List.getElem?_eq_none (by omega), List.getElem?_eq_none (by simp; omega)]

/-- Claim C13 at the slice `01 02 03 04 05`. -/
theorem ReverseHex_reverses_witness :
    ∃ newb, ReverseHex [1, 2, 3, 4, 5] = some ([1, 2, 3, 4, 5], newb) ∧
      newb.length = [1, 2, 3, 4, 5].length ∧
      (∀ i, i < [1, 2, 3, 4, 5].length → newb[i]? = [1, 2, 3, 4, 5][[1, 2, 3, 4, 5].length - 1 - i]?) ∧
      newb = [1, 2, 3, 4, 5].reverse :=
  ReverseHex_reverses [1, 2, 3, 4, 5]

/-- Claim C14: in every state reached from `New` by steps of `AddPeer`, of
the loop of `Watch` and of the handlers (messages, read errors, timeouts),
`peers` has at most `maxPeers` entries, and `maxPeers` stays 10; the same
holds when the cap is set to any `m`. -/
theorem peers_le_maxPeers (m : Nat) (evs : List Event) :
    (runFrom Network.New evs).peers.length ≤ (runFrom Network.New evs).maxPeers ∧
    (runFrom Network.New evs).maxPeers = 10 ∧
    (runFrom (Network.start m) evs).peers.length ≤ (runFrom (Network.start m) evs).maxPeers ∧
    (runFrom (Network.start m) evs).maxPeers = m :=
  ⟨(runFrom_inv evs _ (start_inv 10)).2.2.2.2.2, runFrom_maxPeers evs Network.New,
    (runFrom_inv evs _ (start_inv m)).2.2.2.2.2, runFrom_maxPeers evs (Network.start m)⟩

set_option maxRecDepth 100000 in
/-- Claim C14 at twenty candidates and a cap of 5, after a round of `Watch`
for each candidate: five peers. -/
theorem peers_le_maxPeers_witness :
    (runFrom (Network.start 5) seedWatchEvents).peers.length
        ≤ (runFrom (Network.start 5) seedWatchEvents).maxPeers ∧
      (runFrom (Network.start 5) seedWatchEvents).peers.length = 5 :=
  ⟨(peers_le_maxPeers 5 seedWatchEvents).2.2.1, by decide⟩

/-- Claim C15, counterexample: along `raceTrace` the address `10.0.0.1` is
banned after four steps and absent from the candidates; the write of the call
of `AddPeer` that had passed its tests before the ban then puts the address
among the candidates, and `Watch` promotes it to the peers, where it stays
together with its entry in `banned`; a later `AddPeer` for the address
returns an error and leaves it among the peers. -/
theorem banned_address_readmitted :
    "10.0.0.1" ∈ mapKeys (runFine (Interleaved.start 10) (raceTrace.take 4)).net.banned ∧
    "10.0.0.1" ∉ mapKeys (runFine (Interleaved.start 10) (raceTrace.take 4)).net.newAddr ∧
    "10.0.0.1" ∈ mapKeys (runFine (Interleaved.start 10) (raceTrace.take 5)).net.newAddr ∧
    "10.0.0.1" ∈ mapKeys (runFine (Interleaved.start 10) (raceTrace.take 5)).net.banned ∧
    "10.0.0.1" ∈ mapKeys (runFine (Interleaved.start 10) raceTrace).net.peers ∧
    "10.0.0.1" ∈ mapKeys (runFine (Interleaved.start 10) raceTrace).net.banned ∧
    (runFine (Interleaved.start 10) raceTrace).net.AddPeer { ip := "10.0.0.1", port := 8333 } true
      = (some .alreadyConnected, (runFine (Interleaved.start 10) raceTrace).net) := by
  decide

/-- Claim C15, as amended: an address `a` that is in `banned` in a reachable
state is in `banned` after any further steps `later`, also when calls of
`AddPeer` are cut in two by other steps; a call of `AddPeer` for a peer with
that address whose tests run there returns an error, whether the dial
succeeds or not, and writes nothing.  If `a` is banned, neither among the
candidates nor among the peers, and no call of `AddPeer` for it is under way,
then it stays out of the candidates and the peers.  When every call of
`AddPeer` is taken whole, a banned `a` is always neither among the candidates
nor among the peers. -/
theorem banned_forever (m : Nat) (a : String) :
    (∀ (evs later : List FineEvent),
      a ∈ mapKeys (runFine (Interleaved.start m) evs).net.banned →
      a ∈ mapKeys (runFine (Interleaved.start m) (evs ++ later)).net.banned ∧
      ∀ (p : Peer) (dialOk : Bool), p.ip = a →
        (runFine (Interleaved.start m) (evs ++ later)).net.AddPeerChecks p dialOk ≠ none ∧
        stepFine (runFine (Interleaved.start m) (evs ++ later)) (.addPeerChecks p dialOk)
          = runFine (Interleaved.start m) (evs ++ later) ∧
        ((runFine (Interleaved.start m) (evs ++ later)).net.AddPeer p dialOk).1 ≠ none ∧
        ((runFine (Interleaved.start m) (evs ++ later)).net.AddPeer p dialOk).2
          = (runFine (Interleaved.start m) (evs ++ later)).net) ∧
    (∀ (evs later : List FineEvent),
      a ∈ mapKeys (runFine (Interleaved.start m) evs).net.banned →
      a ∉ mapKeys (runFine (Interleaved.start m) evs).net.newAddr →
      a ∉ mapKeys (runFine (Interleaved.start m) evs).net.peers →
      (∀ p ∈ (runFine (Interleaved.start m) evs).pending, p.ip ≠ a) →
      a ∉ mapKeys (runFine (Interleaved.start m) (evs ++ later)).net.newAddr ∧
      a ∉ mapKeys (runFine (Interleaved.start m) (evs ++ later)).net.peers) ∧
    (∀ (evs later : List Event), a ∈ mapKeys (runFrom (Network.start m) evs).banned →
      a ∈ mapKeys (runFrom (Network.start m) (evs ++ later)).banned ∧
      ∀ (p : Peer) (dialOk : Bool), p.ip = a →
        ((runFrom (Network.start m) (evs ++ later)).AddPeer p dialOk).1 ≠ none ∧
        ((runFrom (Network.start m) (evs ++ later)).AddPeer p dialOk).2
          = runFrom (Network.start m) (evs ++ later) ∧
        a ∉ mapKeys (runFrom (Network.start m) (evs ++ later)).newAddr ∧
        a ∉ mapKeys (runFrom (Network.start m) (evs ++ later)).peers) := by
  refine ⟨?_, ?_, ?_⟩
  · intro evs later h
    have hb : a ∈ mapKeys (runFine (Interleaved.start m) (evs ++ later)).net.banned := by
      rw [← runFine_append]
      exact runFine_banned later _ a h
    refine ⟨hb, ?_⟩
    intro p dialOk hp
    subst hp
    have hc := Network.AddPeerChecks_banned _ p dialOk hb
    have hr := Network.AddPeer_banned _ p dialOk hb
    exact ⟨hc, stepFine_checks_failed _ p dialOk hc, hr.1, hr.2⟩
  · intro evs later hb hn hp hq
    have h := runFine_shut later _ a hb hn hp hq
    rw [runFine_append] at h
    exact ⟨h.1, h.2.1⟩
  · intro evs later h
    have hb : a ∈ mapKeys (runFrom (Network.start m) (evs ++ later)).banned := by
      rw [← runFrom_append]
      exact runFrom_banned later _ a h
    obtain ⟨_, h2, h3, _⟩ := runFrom_inv (evs ++ later) _ (start_inv m)
    refine ⟨hb, ?_⟩
    intro p dialOk hp
    subst hp
    have hr := Network.AddPeer_banned _ p dialOk hb
    exact ⟨hr.1, hr.2, fun hc => h3 _ hc hb, fun hc => h2 _ hc hb⟩

/-- The amended claim C15 at the address banned after four steps of
`raceTrace`, two steps later; at the address banned by `timeoutTrace`, taken
as steps of the finer grain and followed by the tests and the write of a call
of `AddPeer`; and at `timeoutTrace` followed by a whole call of `AddPeer`. -/
theorem banned_forever_witness :
    "10.0.0.1" ∈ mapKeys (runFine (Interleaved.start 10)
        (raceTrace.take 4 ++ raceTrace.drop 4)).net.banned ∧
    (runFine (Interleaved.start 10) (raceTrace.take 4 ++ raceTrace.drop 4)).net.AddPeerChecks
        { ip := "10.0.0.1", port := 9 } true ≠ none ∧
    "10.0.0.1" ∉ mapKeys (runFine (Interleaved.start 10)
        (timeoutTrace.map FineEvent.whole ++
          [.addPeerChecks { ip := "10.0.0.1", port := 9 } true, .addPeerWrite 0])).net.newAddr ∧
    "10.0.0.1" ∉ mapKeys (runFrom (Network.start 10)
        (timeoutTrace ++ [.addPeer { ip := "10.0.0.1", port := 8333 } true])).newAddr :=
  ⟨((banned_forever 10 "10.0.0.1").1 (raceTrace.take 4) (raceTrace.drop 4) (by decide)).1,
   (((banned_forever 10 "10.0.0.1").1 (raceTrace.take 4) (raceTrace.drop 4) (by decide)).2
      { ip := "10.0.0.1", port := 9 } true rfl).1,
   ((banned_forever 10 "10.0.0.1").2.1 (timeoutTrace.map FineEvent.whole)
      [.addPeerChecks { ip := "10.0.0.1", port := 9 } true, .addPeerWrite 0]
      (by decide) (by decide) (by decide) (by decide)).1,
   (((banned_forever 10 "10.0.0.1").2.2 timeoutTrace
      [.addPeer { ip := "10.0.0.1", port := 8333 } true] (by decide)).2
      { ip := "10.0.0.1", port := 8333 } true rfl).2.2.1⟩

/-- Claim C16: in a reachable state with `p` peers and `c` candidates, one
pass of `Watch` over the candidates, in any order, with every handshake
succeeding, leaves `p + min c (maxPeers - p)` peers and `c - min c (maxPeers -
p)` candidates. -/
theorem watchTick_promotes (m : Nat) (evs : List Event) (order : List (String × Peer))
    (hperm : order.Perm (runFrom (Network.start m) evs).newAddr) :
    ((runFrom (Network.start m) evs).watchTick order fun _ => true).peers.length
        = (runFrom (Network.start m) evs).peers.length
          + min (runFrom (Network.start m) evs).newAddr.length
              (m - (runFrom (Network.start m) evs).peers.length) ∧
      ((runFrom (Network.start m) evs).watchTick order fun _ => true).newAddr.length
        = (runFrom (Network.start m) evs).newAddr.length
          - min (runFrom (Network.start m) evs).newAddr.length
              (m - (runFrom (Network.start m) evs).peers.length) := by
  have hnd := runFrom_nodup evs (Network.start m) (by simp [Network.start, Network.New, mapKeys])
  obtain ⟨h1, _⟩ := runFrom_inv evs _ (start_inv m)
  have hmax := runFrom_maxPeers evs (Network.start m)
  have hc := Network.watchTick_count order (runFrom (Network.start m) evs)
    ((hperm.map Prod.fst).nodup_iff.mpr hnd) (fun e he => hperm.mem_iff.mp he) hnd
    (fun k hk hk' => h1 k hk' hk)
  rw [hperm.length_eq, hmax] at hc
  have hm : (Network.start m).maxPeers = m := rfl
  rw [hm] at hc
  constructor
  · exact hc.1
  · omega

/-- Claim C16 at twenty candidates, no peer and a cap of 5: five peers and
fifteen candidates after the pass. -/
theorem watchTick_promotes_witness :
    (((runFrom (Network.start 5) seedEvents).watchTick
        (runFrom (Network.start 5) seedEvents).newAddr fun _ => true).peers.length
        = (runFrom (Network.start 5) seedEvents).peers.length
          + min (runFrom (Network.start 5) seedEvents).newAddr.length
              (5 - (runFrom (Network.start 5) seedEvents).peers.length) ∧
      ((runFrom (Network.start 5) seedEvents).watchTick
          (runFrom (Network.start 5) seedEvents).newAddr fun _ => true).newAddr.length
        = (runFrom (Network.start 5) seedEvents).newAddr.length
          - min (runFrom (Network.start 5) seedEvents).newAddr.length
              (5 - (runFrom (Network.start 5) seedEvents).peers.length)) ∧
    ((runFrom (Network.start 5) seedEvents).watchTick
        (runFrom (Network.start 5) seedEvents).newAddr fun _ => true).peers.length = 5 ∧
    ((runFrom (Network.start 5) seedEvents).watchTick
        (runFrom (Network.start 5) seedEvents).newAddr fun _ => true).newAddr.length = 15 ∧
    (runFrom (Network.start 5) seedEvents).newAddr.length = 20 ∧
    (runFrom (Network.start 5) seedEvents).peers.length = 0 :=
  ⟨watchTick_promotes 5 seedEvents (runFrom (Network.start 5) seedEvents).newAddr
    (List.Perm.refl _), seed_facts⟩

/-- Claim C17, counterexample: a peer is added and promoted and the callback
fails on its first message.  The address is still in `peers`, the loop of
`action` has ended; the timeout of the handler then removes the address from
`peers` and puts it in `banned`. -/
theorem callback_error_leads_to_ban :
    mapKeys (runFrom Network.New callbackErrorTrace).peers = ["10.0.0.1"] ∧
    (runFrom Network.New callbackErrorTrace).handlers
      = [{ p := { ip := "10.0.0.1", port := 8333 }, running := false }] ∧
    mapKeys (runFrom Network.New (callbackErrorTrace ++ [.timeout 0])).banned = ["10.0.0.1"] ∧
    mapKeys (runFrom Network.New (callbackErrorTrace ++ [.timeout 0])).peers = [] := by
  decide

/-- Claim C17, as amended: when the callback fails on a message of handler
`i`, whose loop is running, `peers` and `banned` are left as they are and the
loop of `action` ends; no further message or read error of that handler
changes anything, and its timeout puts the address in `banned` and removes it
from `peers`. -/
theorem callback_error_then_timeout (n : Network) (i : Nat) (h : Handler)
    (addrs : List (Peer × Bool)) (hi : n.handlers[i]? = some h) (hrun : h.running = true) :
    (step n (.message i addrs false)).peers = n.peers ∧
    (step n (.message i addrs false)).banned = n.banned ∧
    (step n (.message i addrs false)).handlers[i]? = some { h with running := false } ∧
    (∀ (addrs2 : List (Peer × Bool)) (cb : Bool),
      step (step n (.message i addrs false)) (.message i addrs2 cb)
        = step n (.message i addrs false)) ∧
    step (step n (.message i addrs false)) (.readError i) = step n (.message i addrs false) ∧
    h.p.ip ∈ mapKeys (step (step n (.message i addrs false)) (.timeout i)).banned ∧
    h.p.ip ∉ mapKeys (step (step n (.message i addrs false)) (.timeout i)).peers := by
  obtain ⟨h1, h2, h3⟩ := Network.actionMessage_failed n i h addrs hi hrun
  have hb := Network.handleTimeout_bans _ i _ h3
  exact ⟨h1, h2, h3, fun addrs2 cb => Network.actionMessage_stopped _ i _ addrs2 cb h3 rfl,
    Network.actionReadError_stopped _ i _ h3 rfl, hb.1, hb.2⟩

/-- The amended claim C17 at the peer of `callbackErrorTrace`. -/
theorem callback_error_then_timeout_witness :
    (step (runFrom Network.New (callbackErrorTrace.take 2)) (.message 0 [] false)).peers
      = (runFrom Network.New (callbackErrorTrace.take 2)).peers ∧
    "10.0.0.1" ∈ mapKeys (step (step (runFrom Network.New (callbackErrorTrace.take 2))
      (.message 0 [] false)) (.timeout 0)).banned :=
  ⟨(callback_error_then_timeout (runFrom Network.New (callbackErrorTrace.take 2)) 0
      { p := { ip := "10.0.0.1", port := 8333 }, running := true } [] (by decide) rfl).1,
   (callback_error_then_timeout (runFrom Network.New (callbackErrorTrace.take 2)) 0
      { p := { ip := "10.0.0.1", port := 8333 }, running := true } [] (by decide) rfl).2.2.2.2.2.1⟩

/-- Claim C18: with a `ripemd160` of 20 bytes and a `DoubleSha256` of at least
4 bytes, `EcdsaToPkeyHash` on a key whose first byte is `0x04` returns the 25
bytes `00`, hash160 of the key, and the first 4 bytes of `DoubleSha256` of the
21 bytes before; on a key with any other first byte it returns `nil`. -/
theorem EcdsaToPkeyHash_payload (sha256 ripemd160 doubleSha256 : List Byte → List Byte)
    (b0 : Nat) (rest : List Byte)
    (hr : ∀ x, (ripemd160 x).length = 20) (hd : ∀ x, 4 ≤ (doubleSha256 x).length) :
    (b0 = 0x04 →
      EcdsaToPkeyHash sha256 ripemd160 doubleSha256 (b0 :: rest)
        = .ok (some ([0x00] ++ ripemd160 (sha256 (b0 :: rest))
            ++ (doubleSha256 ([0x00] ++ ripemd160 (sha256 (b0 :: rest)))).take 4)) ∧
      ([0x00] ++ ripemd160 (sha256 (b0 :: rest))
            ++ (doubleSha256 ([0x00] ++ ripemd160 (sha256 (b0 :: rest)))).take 4).length
        = 25) ∧
    (b0 ≠ 0x04 → EcdsaToPkeyHash sha256 ripemd160 doubleSha256 (b0 :: rest) = .ok none) := by
  constructor
  · intro h4
    constructor
    · unfold EcdsaToPkeyHash
      simp only [List.getElem?_cons_zero, h4, if_true]
      rw [if_neg (by have := hd ([0x00] ++ ripemd160 (sha256 (4 :: rest))); omega)]
    · simp only [List.length_append, List.length_singleton, hr, List.length_take]
      have := hd ([0x00] ++ ripemd160 (sha256 (b0 :: rest)))
      omega
  · intro h4
    unfold EcdsaToPkeyHash
    simp only [List.getElem?_cons_zero, h4, if_false]

/-- Claim C18 at the keys `04 07 07` and `02 07 07`, with stand-ins for the
hash functions. -/
theorem EcdsaToPkeyHash_payload_witness :
    EcdsaToPkeyHash (fun _ => List.replicate 32 1) (fun _ => List.replicate 20 2)
        (fun x => x ++ List.replicate 32 3) [0x04, 7, 7]
      = .ok (some ([0x00] ++ List.replicate 20 2 ++ [0x00, 2, 2, 2])) ∧
    EcdsaToPkeyHash (fun _ => List.replicate 32 1) (fun _ => List.replicate 20 2)
        (fun x => x ++ List.replicate 32 3) [0x02, 7, 7] = .ok none :=
  ⟨((EcdsaToPkeyHash_payload (fun _ => List.replicate 32 1) (fun _ => List.replicate 20 2)
      (fun x => x ++ List.replicate 32 3) 0x04 [7, 7] (fun _ => rfl)
      (fun x => by simp)).1 rfl).1,
   (EcdsaToPkeyHash_payload (fun _ => List.replicate 32 1) (fun _ => List.replicate 20 2)
      (fun x => x ++ List.replicate 32 3) 0x02 [7, 7] (fun _ => rfl)
      (fun x => by simp)).2 (by decide)⟩

/-- Claim C19: when the `n` bytes `a` come next in the file, `Peek(n)` returns
`a` and leaves the file, cursor included, as it was; a read of `n` bytes
after it returns `a` again, and so does `ReadBytes(n)`, which `make` serves
for every `n` up to `maxAlloc`. -/
theorem Peek_frame (f : File) (n : Nat) (a t : List Byte) (h : f.rest = a ++ t)
    (hn : a.length = n) :
    f.Peek n = (some a, f) ∧ (f.Peek n).2.pos = f.pos ∧
      ((f.Peek n).2.Read n).1 = a ∧
      (n ≤ maxAlloc → ((f.Peek n).2.ReadBytes n).map Prod.fst = some a) := by
  have h1 := File.Read_append f a t h
  rw [hn] at h1
  rw [File.Peek_eq, h1.1]
  refine ⟨rfl, rfl, rfl, ?_⟩
  intro hle
  show (f.ReadBytes n).map Prod.fst = some a
  rw [File.ReadBytes_some f n hle, Option.map_some', h1.1]

/-- Claim C19 at the file `01 02 03 04 05` with the cursor at 1. -/
theorem Peek_frame_witness :
    (File.mk [1, 2, 3, 4, 5] 1).Peek 2 = (some [2, 3], File.mk [1, 2, 3, 4, 5] 1) ∧
      ((File.mk [1, 2, 3, 4, 5] 1).Peek 2).2.pos = 1 ∧
      (((File.mk [1, 2, 3, 4, 5] 1).Peek 2).2.Read 2).1 = [2, 3] ∧
      (((File.mk [1, 2, 3, 4, 5] 1).Peek 2).2.ReadBytes 2).map Prod.fst = some [2, 3] :=
  ⟨(Peek_frame (File.mk [1, 2, 3, 4, 5] 1) 2 [2, 3] [4, 5] rfl rfl).1,
   (Peek_frame (File.mk [1, 2, 3, 4, 5] 1) 2 [2, 3] [4, 5] rfl rfl).2.1,
   (Peek_frame (File.mk [1, 2, 3, 4, 5] 1) 2 [2, 3] [4, 5] rfl rfl).2.2.1,
   (Peek_frame (File.mk [1, 2, 3, 4, 5] 1) 2 [2, 3] [4, 5] rfl rfl).2.2.2 (by decide)⟩

/-- Claim C20: in every state reached from `New` (with any cap `m`) by whole
steps of `AddPeer`, `Watch` and the handlers, no address `k` is a key of two
of the maps `peers`, `newAddr` and `banned`. -/
theorem maps_disjoint (m : Nat) (evs : List Event) (k : String) :
    ¬ (k ∈ mapKeys (runFrom (Network.start m) evs).peers ∧
        k ∈ mapKeys (runFrom (Network.start m) evs).newAddr) ∧
    ¬ (k ∈ mapKeys (runFrom (Network.start m) evs).peers ∧
        k ∈ mapKeys (runFrom (Network.start m) evs).banned) ∧
    ¬ (k ∈ mapKeys (runFrom (Network.start m) evs).newAddr ∧
        k ∈ mapKeys (runFrom (Network.start m) evs).banned) := by
  obtain ⟨h1, h2, h3, _⟩ := runFrom_inv evs _ (start_inv m)
  exact ⟨fun h => h1 k h.1 h.2, fun h => h2 k h.1 h.2, fun h => h3 k h.1 h.2⟩

/-- Claim C20 at the state after `timeoutTrace` and the address it bans. -/
theorem maps_disjoint_witness :
    ¬ ("10.0.0.1" ∈ mapKeys (runFrom (Network.start 10) timeoutTrace).peers ∧
        "10.0.0.1" ∈ mapKeys (runFrom (Network.start 10) timeoutTrace).banned) ∧
      "10.0.0.1" ∈ mapKeys (runFrom (Network.start 10) timeoutTrace).banned :=
  ⟨(maps_disjoint 10 timeoutTrace "10.0.0.1").2.1, by decide⟩

end Bclib
